import Mathlib

/-!
Verification of the rmrfd core library against its specification.

The Rust sources under src/librmrfd/src are shallowly embedded below:
pure functions become Lean functions on Nat / List Nat, the priority
queue's mutable state becomes explicit state passing over a small state
record, and fallible operations return Except.  Machine integers are
modelled by Nat; where an overflow or truncation could matter the
theorems carry the corresponding bounds as hypotheses.

File map of the embedding:
  * objectpath.rs   -> ObjectPath, cmpPath, pushParents, toPathbuf, writePathbuf
  * internednames.rs (absent from the sources; modelled from the spec)
                    -> Name, nameCmp
  * priority_queue.rs -> QueueEntry, qcmp, popMax, PQState, step, runOps
  * inventory_gatherer.rs -> processEntry, workerStep, dirPrioOf
  * objectlist.rs   -> bsLoop, binarySearch, olInsert, olContains
-/

namespace Rmrfd

/-- Byte sequence of an OS string.  Filesystem names are arbitrary bytes
(computed from OsStr in the sources); a byte is modelled as a Nat. -/
abbrev Name := List Nat

/-- Comparison of two bytes (Rust Ord on integers). -/
def byteCmp (a b : Nat) : Ordering :=
  if a < b then .lt else if b < a then .gt else .eq

/-- Lexicographic, element-wise comparison of lists, lifted from a
comparison on the elements (Rust derives Ord on Vec and on byte strings
this way: element-wise, shorter prefix first). -/
def listCmp (c : α → α → Ordering) : List α → List α → Ordering
  | [], [] => .eq
  | [], _ :: _ => .lt
  | _ :: _, [] => .gt
  | a :: as, b :: bs => (c a b).then (listCmp c as bs)

/-- Modelled from the spec: the file internednames.rs is missing from the
sources (lib.rs declares the module and objectpath.rs / the gatherer call
it, but the file itself is absent).  Spec section 4.1: intern(bytes)
returns the canonical handle for the byte sequence, and handles compare
equal by identity exactly when the byte sequences are equal.  An interned
name is therefore modelled by its byte content, and its comparison is the
byte-wise lexicographic order. -/
def nameCmp : Name → Name → Ordering := listCmp byteCmp

/-- ObjectPath (objectpath.rs lines 10-16): a record of an optional shared
reference to a parent node plus an interned name.  The two constructors
correspond to parent == None (a root node) and parent == Some. -/
inductive ObjectPath where
  | base (name : Name)
  | sub (parent : ObjectPath) (name : Name)
deriving DecidableEq

namespace ObjectPath

/-- Sequence of names from root to leaf of a node. -/
def pathNames : ObjectPath → List Name
  | .base n => [n]
  | .sub p n => pathNames p ++ [n]

/-- Modelled from the spec: this draft's objectpath.rs has no depth()
method although the gatherer calls it; spec section 3 defines a node's
depth as 0 for a root and parent.depth + 1 otherwise. -/
def depth : ObjectPath → Nat
  | .base _ => 0
  | .sub p _ => depth p + 1

/-- Derived Ord of ObjectPath (objectpath.rs line 10, derive(PartialOrd,
Ord) on the struct): field parent is compared first with the Option
ordering (None sorts before Some, Some compares the referenced nodes),
then field name. -/
def cmpPath : ObjectPath → ObjectPath → Ordering
  | .base n, .base m => nameCmp n m
  | .base _, .sub _ _ => .lt
  | .sub _ _, .base _ => .gt
  | .sub p n, .sub q m => (cmpPath p q).then (nameCmp n m)

/-- Derived PartialEq of ObjectPath (objectpath.rs line 10): the optional
parents are compared by value (Arc dereferences to the node), then the
names. -/
def beqPath : ObjectPath → ObjectPath → Bool
  | .base n, .base m => n == m
  | .sub p n, .sub q m => beqPath p q && n == m
  | _, _ => false

/-- Stream of data fed to the hasher by the derived Hash impl of
ObjectPath (objectpath.rs line 10): the Option discriminant, recursively
the parent node, then the name bytes prefixed by their length. -/
def hashStream : ObjectPath → List Nat
  | .base n => 0 :: n.length :: n
  | .sub p n => 1 :: (hashStream p ++ n.length :: n)

end ObjectPath

/-- Model of std PathBuf::push on a byte buffer (Unix rules, as invoked by
pathbuf_push_parents): pushing an absolute path (leading separator byte
47) replaces the buffer; otherwise a separator is appended first unless
the buffer is empty or already ends with a separator, then the pushed
bytes follow. -/
def pushPath (buf p : List Nat) : List Nat :=
  if p.head? = some 47 then p
  else if buf = [] ∨ buf.getLast? = some 47 then buf ++ p
  else buf ++ 47 :: p

namespace ObjectPath

/-- ObjectPath::pathbuf_push_parents (objectpath.rs lines 35-42): walk to
the root, then push each name onto the buffer on the way back.  The len
argument of the source only pre-reserves capacity and has no effect on
the contents, so it is dropped. -/
def pushParents : ObjectPath → List Nat → List Nat
  | .base n, buf => pushPath buf n
  | .sub p n, buf => pushPath (pushParents p buf) n

/-- ObjectPath::to_pathbuf (objectpath.rs lines 52-56): materialise into a
fresh buffer. -/
def toPathbuf (x : ObjectPath) : List Nat := pushParents x []

/-- Model of PathBuf::clear: the buffer becomes empty whatever it held. -/
def pbClear (_target : List Nat) : List Nat := []

/-- ObjectPath::write_pathbuf (objectpath.rs lines 45-49): clear the
caller-supplied buffer, then materialise into it. -/
def writePathbuf (x : ObjectPath) (target : List Nat) : List Nat :=
  pushParents x (pbClear target)

end ObjectPath

/-- Chain constructor of the claims: child(...child(root(r), n1)..., nk),
built with ObjectPath::new and ObjectPath::subobject. -/
def mkChain (r : Name) (ns : List Name) : ObjectPath :=
  ns.foldl ObjectPath.sub (ObjectPath.base r)

/-- Path concatenation following the spec's words: r + "/" + n1 + ... +
"/" + nk with separator byte 47. -/
def specJoin (r : Name) (ns : List Name) : List Nat :=
  ns.foldl (fun acc n => acc ++ 47 :: n) r

/-- Lexicographic order on name sequences, following the spec's words
(compare the sequences of names front to back, a missing name sorts
first). -/
def lexNamesCmp : List Name → List Name → Ordering := listCmp nameCmp

/-- Shortlex comparison of name sequences: by length first, then
lexicographically; this is what the derived ObjectPath order turns out to
implement. -/
def shortlexNamesCmp (xs ys : List Name) : Ordering :=
  (byteCmp xs.length ys.length).then (lexNamesCmp xs ys)

/-! ### Ordering helper lemmas -/

theorem Ordering.then_eq_eq {o p : Ordering} : o.then p = .eq ↔ o = .eq ∧ p = .eq := by
  cases o <;> simp [Ordering.then]

theorem Ordering.then_ord_eq {o : Ordering} : o.then .eq = o := by
  cases o <;> rfl

theorem Ordering.then_assoc (o p q : Ordering) :
    (o.then p).then q = o.then (p.then q) := by
  cases o <;> rfl

theorem Ordering.then_eq_lt {o p : Ordering} :
    o.then p = .lt ↔ o = .lt ∨ (o = .eq ∧ p = .lt) := by
  cases o <;> simp [Ordering.then]

theorem Ordering.swap_then (o p : Ordering) :
    (o.then p).swap = o.swap.then p.swap := by
  cases o <;> rfl

theorem Ordering.swap_eq_lt {o : Ordering} : o.swap = .lt ↔ o = .gt := by
  cases o <;> simp [Ordering.swap]

theorem Ordering.swap_eq_eq {o : Ordering} : o.swap = .eq ↔ o = .eq := by
  cases o <;> simp [Ordering.swap]

/-- Laws making a three-way comparison a total order on its type. -/
structure CmpLaws (c : α → α → Ordering) : Prop where
  eq_iff : ∀ a b, c a b = .eq ↔ a = b
  swap : ∀ a b, c a b = (c b a).swap
  lt_trans : ∀ a b d, c a b = .lt → c b d = .lt → c a d = .lt

theorem CmpLaws.refl {c : α → α → Ordering} (h : CmpLaws c) (a : α) : c a a = .eq :=
  (h.eq_iff a a).mpr rfl

theorem CmpLaws.gt_iff_lt {c : α → α → Ordering} (h : CmpLaws c) (a b : α) :
    c a b = .gt ↔ c b a = .lt := by
  rw [h.swap a b]
  cases c b a <;> simp [Ordering.swap]

theorem CmpLaws.lt_irrefl {c : α → α → Ordering} (h : CmpLaws c) (a : α) :
    ¬ c a a = .lt := by
  intro hc
  have := h.refl a
  simp [hc] at this

theorem byteCmp_lt_iff {a b : Nat} : byteCmp a b = .lt ↔ a < b := by
  by_cases h1 : a < b <;> by_cases h2 : b < a <;> simp [byteCmp, h1, h2] <;> omega

theorem byteCmp_laws : CmpLaws byteCmp := by
  refine ⟨?_, ?_, ?_⟩
  · intro a b
    by_cases h1 : a < b <;> by_cases h2 : b < a <;> simp [byteCmp, h1, h2] <;> omega
  · intro a b
    by_cases h1 : a < b <;> by_cases h2 : b < a <;>
      simp [byteCmp, h1, h2, Ordering.swap] <;> omega
  · intro a b d hab hbd
    rw [byteCmp_lt_iff] at hab hbd ⊢
    omega

theorem listCmp_laws {c : α → α → Ordering} (h : CmpLaws c) : CmpLaws (listCmp c) := by
  constructor
  · intro a
    induction a with
    | nil => intro b; cases b <;> simp [listCmp]
    | cons x xs ih =>
      intro b; cases b with
      | nil => simp [listCmp]
      | cons y ys =>
        simp [listCmp, Ordering.then_eq_eq, h.eq_iff, ih]
  · intro a
    induction a with
    | nil => intro b; cases b <;> simp [listCmp, Ordering.swap]
    | cons x xs ih =>
      intro b; cases b with
      | nil => simp [listCmp, Ordering.swap]
      | cons y ys =>
        simp only [listCmp, Ordering.swap_then]
        rw [← h.swap, ← ih]
  · intro a
    induction a with
    | nil =>
      intro b d hab hbd
      cases b <;> cases d <;> simp_all [listCmp]
    | cons x xs ih =>
      intro b d hab hbd
      cases b with
      | nil => simp [listCmp] at hab
      | cons y ys =>
        cases d with
        | nil => simp [listCmp] at hbd
        | cons z zs =>
          simp only [listCmp, Ordering.then_eq_lt] at *
          rcases hab with hxy | ⟨hxy, hxys⟩
          · rcases hbd with hyz | ⟨hyz, hyzs⟩
            · exact Or.inl (h.lt_trans _ _ _ hxy hyz)
            · cases (h.eq_iff y z).mp hyz
              exact Or.inl hxy
          · cases (h.eq_iff x y).mp hxy
            rcases hbd with hyz | ⟨hyz, hyzs⟩
            · exact Or.inl hyz
            · cases (h.eq_iff x z).mp hyz
              exact Or.inr ⟨(h.eq_iff x x).mpr rfl, ih _ _ hxys hyzs⟩

theorem nameCmp_laws : CmpLaws nameCmp := listCmp_laws byteCmp_laws

theorem lexNamesCmp_laws : CmpLaws lexNamesCmp := listCmp_laws nameCmp_laws

/-! ### ObjectPath lemmas: name sequences, the derived order, hashing -/

namespace ObjectPath

theorem pathNames_ne_nil (x : ObjectPath) : pathNames x ≠ [] := by
  cases x <;> simp [pathNames]

theorem pathNames_length_pos (x : ObjectPath) : 0 < (pathNames x).length := by
  cases hx : pathNames x with
  | nil => exact absurd hx (pathNames_ne_nil x)
  | cons a as => simp

theorem pathNames_injective : ∀ {a b : ObjectPath}, pathNames a = pathNames b → a = b := by
  intro a
  induction a with
  | base n =>
    intro b h
    cases b with
    | base m => simp [pathNames] at h; rw [h]
    | sub q m =>
      simp only [pathNames] at h
      have hq := pathNames_length_pos q
      have hl := congrArg List.length h
      simp only [List.length_append, List.length_cons, List.length_nil] at hl
      omega
  | sub p n ih =>
    intro b h
    cases b with
    | base m =>
      simp only [pathNames] at h
      have hp := pathNames_length_pos p
      have hl := congrArg List.length h
      simp only [List.length_append, List.length_cons, List.length_nil] at hl
      omega
    | sub q m =>
      simp only [pathNames] at h
      have hlen : ([n] : List Name).length = ([m] : List Name).length := by simp
      obtain ⟨h1, h2⟩ := List.append_inj' h hlen
      simp at h2
      rw [ih h1, h2]

theorem beqPath_iff_eq : ∀ a b : ObjectPath, beqPath a b = true ↔ a = b := by
  intro a
  induction a with
  | base n => intro b; cases b <;> simp [beqPath]
  | sub p n ih => intro b; cases b <;> simp [beqPath, ih]

theorem byteCmp_succ (a b : Nat) : byteCmp (a + 1) (b + 1) = byteCmp a b := by
  by_cases h1 : a < b <;> by_cases h2 : b < a <;>
    simp [byteCmp, h1, h2, Nat.succ_lt_succ_iff]

theorem lexNamesCmp_append_last {xs ys : List Name} (h : xs.length = ys.length)
    (n m : Name) :
    lexNamesCmp (xs ++ [n]) (ys ++ [m]) = (lexNamesCmp xs ys).then (nameCmp n m) := by
  induction xs generalizing ys with
  | nil =>
    cases ys with
    | nil =>
      show lexNamesCmp [n] [m] = (lexNamesCmp [] []).then (nameCmp n m)
      simp only [lexNamesCmp, listCmp]
      cases nameCmp n m <;> rfl
    | cons y ys => simp at h
  | cons x xs ih =>
    cases ys with
    | nil => simp at h
    | cons y ys =>
      have hlen : xs.length = ys.length := by simpa using h
      show (nameCmp x y).then (lexNamesCmp (xs ++ [n]) (ys ++ [m])) =
        ((nameCmp x y).then (lexNamesCmp xs ys)).then (nameCmp n m)
      rw [ih hlen, Ordering.then_assoc]

theorem shortlexNamesCmp_append_last (xs ys : List Name) (n m : Name) :
    shortlexNamesCmp (xs ++ [n]) (ys ++ [m]) =
      (shortlexNamesCmp xs ys).then (nameCmp n m) := by
  unfold shortlexNamesCmp
  simp only [List.length_append, List.length_cons, List.length_nil]
  rcases Nat.lt_trichotomy xs.length ys.length with hlt | heq | hgt
  · have h1 : byteCmp (xs.length + 0 + 1) (ys.length + 0 + 1) = .lt := by
      rw [byteCmp_succ]; simpa [byteCmp_lt_iff] using hlt
    have h2 : byteCmp xs.length ys.length = .lt := by simpa [byteCmp_lt_iff] using hlt
    simp [h1, h2, Ordering.then]
  · have h1 : byteCmp (xs.length + 0 + 1) (ys.length + 0 + 1) = .eq := by
      rw [byteCmp_succ, heq]; exact byteCmp_laws.refl _
    have h2 : byteCmp xs.length ys.length = .eq := by
      rw [heq]; exact byteCmp_laws.refl _
    simp only [h1, h2, Ordering.then]
    exact lexNamesCmp_append_last heq n m
  · have h1 : byteCmp (xs.length + 0 + 1) (ys.length + 0 + 1) = .gt := by
      rw [byteCmp_succ, byteCmp_laws.gt_iff_lt]
      simpa [byteCmp_lt_iff] using hgt
    have h2 : byteCmp xs.length ys.length = .gt := by
      rw [byteCmp_laws.gt_iff_lt]; simpa [byteCmp_lt_iff] using hgt
    simp [h1, h2, Ordering.then]

theorem cmpPath_eq_shortlex : ∀ a b : ObjectPath,
    cmpPath a b = shortlexNamesCmp (pathNames a) (pathNames b) := by
  intro a
  induction a with
  | base n =>
    intro b
    cases b with
    | base m =>
      show nameCmp n m = shortlexNamesCmp [n] [m]
      unfold shortlexNamesCmp
      simp only [List.length_cons, List.length_nil, lexNamesCmp, listCmp]
      rw [byteCmp_laws.refl]
      cases nameCmp n m <;> rfl
    | sub q m =>
      have hq := pathNames_length_pos q
      have h1 : byteCmp (pathNames (ObjectPath.base n)).length
          (pathNames (ObjectPath.sub q m)).length = .lt := by
        simp only [pathNames, List.length_append, List.length_cons, List.length_nil]
        rw [byteCmp_lt_iff]; simpa using hq
      simp [cmpPath, shortlexNamesCmp, h1, Ordering.then]
  | sub p n ih =>
    intro b
    cases b with
    | base m =>
      have hp := pathNames_length_pos p
      have h1 : byteCmp (pathNames (ObjectPath.sub p n)).length
          (pathNames (ObjectPath.base m)).length = .gt := by
        simp only [pathNames, List.length_append, List.length_cons, List.length_nil]
        rw [byteCmp_laws.gt_iff_lt, byteCmp_lt_iff]; simpa using hp
      simp [cmpPath, shortlexNamesCmp, h1, Ordering.then]
    | sub q m =>
      simp only [cmpPath, pathNames]
      rw [ih q, shortlexNamesCmp_append_last]

theorem cmpPath_laws : CmpLaws cmpPath := by
  refine ⟨?_, ?_, ?_⟩
  · intro a b
    rw [cmpPath_eq_shortlex]
    constructor
    · intro h
      apply pathNames_injective
      unfold shortlexNamesCmp at h
      rw [Ordering.then_eq_eq] at h
      exact (lexNamesCmp_laws.eq_iff _ _).mp h.2
    · intro h; rw [h]
      unfold shortlexNamesCmp
      rw [byteCmp_laws.refl, lexNamesCmp_laws.refl]
      rfl
  · intro a b
    rw [cmpPath_eq_shortlex, cmpPath_eq_shortlex]
    unfold shortlexNamesCmp
    rw [Ordering.swap_then, ← byteCmp_laws.swap, ← lexNamesCmp_laws.swap]
  · intro a b d hab hbd
    rw [cmpPath_eq_shortlex] at *
    unfold shortlexNamesCmp at *
    rw [Ordering.then_eq_lt] at *
    rcases hab with h1 | ⟨h1, h2⟩
    · rcases hbd with h3 | ⟨h3, h4⟩
      · exact Or.inl (byteCmp_laws.lt_trans _ _ _ h1 h3)
      · rw [(byteCmp_laws.eq_iff _ _).mp h3] at h1
        exact Or.inl h1
    · rw [(byteCmp_laws.eq_iff _ _).mp h1] at *
      rcases hbd with h3 | ⟨h3, h4⟩
      · exact Or.inl h3
      · rw [(byteCmp_laws.eq_iff _ _).mp h3] at *
        exact Or.inr ⟨byteCmp_laws.refl _, lexNamesCmp_laws.lt_trans _ _ _ h2 h4⟩

end ObjectPath

/-! ### Path materialisation lemmas -/

theorem pushPath_nil (p : List Nat) : pushPath [] p = p := by
  by_cases h : p.head? = some 47 <;> simp [pushPath, h]

theorem toPathbuf_sub (p : ObjectPath) (n : Name) :
    ObjectPath.toPathbuf (ObjectPath.sub p n) = pushPath (ObjectPath.toPathbuf p) n := rfl

theorem specJoin_append (r : Name) (ns : List Name) (n : Name) :
    specJoin r (ns ++ [n]) = specJoin r ns ++ 47 :: n := by
  simp [specJoin, List.foldl_append]

theorem mkChain_append (r : Name) (ns : List Name) (n : Name) :
    mkChain r (ns ++ [n]) = ObjectPath.sub (mkChain r ns) n := by
  simp [mkChain, List.foldl_append]

theorem toPathbuf_mkChain (r : Name) (ns : List Name)
    (hr : r ≠ []) (hr47 : r.getLast? ≠ some 47)
    (hns : ∀ n ∈ ns, n ≠ [] ∧ 47 ∉ n) :
    ObjectPath.toPathbuf (mkChain r ns) = specJoin r ns ∧
      specJoin r ns ≠ [] ∧ (specJoin r ns).getLast? ≠ some 47 := by
  induction ns using List.reverseRecOn with
  | nil => exact ⟨pushPath_nil r, hr, hr47⟩
  | append_singleton ns n ih =>
    have hn := hns n (by simp)
    have hns2 : ∀ m ∈ ns, m ≠ [] ∧ 47 ∉ m := fun m hm => hns m (by simp [hm])
    obtain ⟨h1, h2, h3⟩ := ih hns2
    have hhead : ¬ n.head? = some 47 := by
      cases n with
      | nil => simp
      | cons a as =>
        intro hcon
        simp at hcon
        exact hn.2 (by rw [hcon]; exact List.mem_cons_self 47 as)
    rw [mkChain_append, specJoin_append, toPathbuf_sub, h1]
    refine ⟨?_, by simp, ?_⟩
    · unfold pushPath
      rw [if_neg hhead, if_neg (fun hc => hc.elim h2 h3)]
    · intro hcon
      rw [List.getLast?_append] at hcon
      cases n with
      | nil => exact absurd rfl hn.1
      | cons a as =>
        rw [List.getLast?_cons_cons] at hcon
        rcases hlst : (a :: as : List Nat).getLast? with _ | y
        · rw [List.getLast?_eq_none_iff] at hlst
          exact absurd hlst (by simp)
        · rw [hlst] at hcon
          simp only [Option.or_some, Option.some.injEq] at hcon
          rw [hcon] at hlst
          obtain ⟨ys, hys⟩ := List.getLast?_eq_some_iff.mp hlst
          exact hn.2 (by rw [hys]; simp)

/-- Claim C6, counterexample to the unamended claim: with root "/" (the
byte 47) and one child name "b", the code materialises "/b" while the
claim formula r + "/" + name_1 gives "//b"; PathBuf::push does not
insert a second separator after a buffer that already ends with one. -/
theorem claim_C6_counterexample :
    ObjectPath.toPathbuf (mkChain [47] [[98]]) = [47, 98] ∧
    specJoin [47] [[98]] = [47, 47, 98] ∧
    ObjectPath.toPathbuf (mkChain [47] [[98]]) ≠ specJoin [47] [[98]] := by
  decide

/-- Claim C6 (amended): for every node built as a chain
child(...child(root(r), n_1)..., n_k), provided the root r is nonempty and
does not itself end with the separator byte and every name is a nonempty
component not containing the separator, materialising the filesystem path
yields exactly r followed by "/" and n_1 through n_k joined with the
separator.  (The unamended claim fails when r ends with the separator,
see the counterexample.) -/
theorem claim_C6_path_materialisation (r : Name) (ns : List Name)
    (hr : r ≠ []) (hr47 : r.getLast? ≠ some 47)
    (hns : ∀ n ∈ ns, n ≠ [] ∧ 47 ∉ n) :
    ObjectPath.toPathbuf (mkChain r ns) = specJoin r ns :=
  (toPathbuf_mkChain r ns hr hr47 hns).1

/-- Witness for claim C6 at the concrete chain root "/r" with children
"a" and "b". -/
theorem claim_C6_witness :
    ObjectPath.toPathbuf (mkChain [47, 114] [[97], [98]]) =
      specJoin [47, 114] [[97], [98]] :=
  claim_C6_path_materialisation [47, 114] [[97], [98]]
    (by decide) (by decide) (by decide)

/-- Claim C7, counterexample to the unamended claim: the derived ObjectPath
order is not the lexicographic order on root-to-leaf name sequences: the
root node "b" sorts below the two-level node "a"/"c" (absent parents sort
first), while lexicographically ["b"] sorts above ["a", "c"]. -/
theorem claim_C7_counterexample :
    ObjectPath.cmpPath (.base [98]) (.sub (.base [97]) [99]) = .lt ∧
    lexNamesCmp (ObjectPath.pathNames (.base [98]))
      (ObjectPath.pathNames (.sub (.base [97]) [99])) = .gt := by
  decide

/-- Claim C7 (amended): equality and hashing of ObjectPath are determined
solely by the root-to-leaf name sequences, and the derived comparison is a
total order on them; however that order is the shortlex order on the name
sequences (shorter sequence first, equal lengths compared
lexicographically), not the lexicographic order (see the
counterexample). -/
theorem claim_C7_eq_hash_order :
    (∀ a b : ObjectPath,
      ObjectPath.beqPath a b = true ↔ ObjectPath.pathNames a = ObjectPath.pathNames b) ∧
    (∀ a b : ObjectPath, ObjectPath.pathNames a = ObjectPath.pathNames b →
      ObjectPath.hashStream a = ObjectPath.hashStream b) ∧
    (∀ a b : ObjectPath, ObjectPath.cmpPath a b =
      shortlexNamesCmp (ObjectPath.pathNames a) (ObjectPath.pathNames b)) ∧
    CmpLaws ObjectPath.cmpPath := by
  refine ⟨?_, ?_, ObjectPath.cmpPath_eq_shortlex, ObjectPath.cmpPath_laws⟩
  · intro a b
    rw [ObjectPath.beqPath_iff_eq]
    exact ⟨fun h => h ▸ rfl, fun h => ObjectPath.pathNames_injective h⟩
  · intro a b h
    rw [ObjectPath.pathNames_injective h]

/-- Witness for claim C7 at two concrete nodes with the same name sequence. -/
theorem claim_C7_witness :
    ObjectPath.hashStream (.sub (.base [97]) [98]) =
      ObjectPath.hashStream (.sub (.base [97]) [98]) ∧
    ObjectPath.beqPath (.base [97]) (.base [97]) = true :=
  ⟨claim_C7_eq_hash_order.2.1 _ _ rfl, (claim_C7_eq_hash_order.1 _ _).mpr rfl⟩

/-- Claim C10: write_pathbuf first clears the reused buffer, so the
materialised path equals the one produced by to_pathbuf on a fresh buffer,
independent of the buffer's previous contents. -/
theorem claim_C10_write_pathbuf (x : ObjectPath) (target : List Nat) :
    ObjectPath.writePathbuf x target = ObjectPath.toPathbuf x := rfl

/-! ## PriorityQueue (priority_queue.rs) -/

/-- QueueEntry (priority_queue.rs lines 129-137), monomorphised at Nat
payloads and Nat priorities (the Rust type is generic in K and P; the
claims quantify only over priorities). -/
inductive QueueEntry where
  | item (k : Nat) (p : Nat)
  | drained
  | taken
deriving DecidableEq

/-- Ord for QueueEntry (priority_queue.rs lines 162-173): two items
compare by reversed priority (b.cmp(a)), so in the max-heap the smallest
priority is the greatest entry; Drained compares greater than everything
else.  The source declares comparisons involving Taken unreachable (Taken
never enters the heap); the model returns eq there. -/
def qcmp : QueueEntry → QueueEntry → Ordering
  | .item _ a, .item _ b => byteCmp b a
  | .drained, .drained => .eq
  | .drained, _ => .gt
  | _, .drained => .lt
  | _, _ => .eq

/-- Extraction of a maximal entry (with respect to qcmp) from a list,
keeping the earliest among ties: the model of BinaryHeap::pop, which
removes some greatest element (the tie order of the Rust heap is
unspecified; the claims depend only on priorities). -/
def selectMax (best : QueueEntry) : List QueueEntry → QueueEntry × List QueueEntry
  | [] => (best, [])
  | x :: xs =>
    if qcmp x best = .gt then
      let r := selectMax x xs
      (r.1, best :: r.2)
    else
      let r := selectMax best xs
      (r.1, x :: r.2)

/-- BinaryHeap::pop on the heap contents. -/
def popMax : List QueueEntry → Option (QueueEntry × List QueueEntry)
  | [] => none
  | x :: xs => some (selectMax x xs)

/-- State of a PriorityQueue (priority_queue.rs lines 22-31) plus the
outstanding receive guards: heap holds the binary heap's contents,
inProgress and isDrained the two atomics, guards the entries that have
been received but whose ReceiveGuard has not yet been dropped. -/
structure PQState where
  heap : List QueueEntry
  inProgress : Nat
  isDrained : Bool
  guards : List QueueEntry
deriving DecidableEq

/-- PriorityQueue::new (lines 49-56): empty heap, in_progress == 0,
is_drained == true. -/
def initPQ : PQState := ⟨[], 0, true, []⟩

/-- PriorityQueue::send (lines 58-67): increment in_progress, clear
is_drained, push the item. -/
def pqSend (s : PQState) (k p : Nat) : PQState :=
  { s with
    heap := QueueEntry.item k p :: s.heap,
    inProgress := s.inProgress + 1,
    isDrained := false }

/-- PriorityQueue::send_drained (lines 69-88): the compare_exchange of
is_drained from false to true guards the extra in_progress increment and
the push of the Drained entry. -/
def pqSendDrained (s : PQState) : PQState :=
  if s.isDrained = false then
    { s with
      isDrained := true,
      inProgress := s.inProgress + 1,
      heap := QueueEntry.drained :: s.heap }
  else s

/-- PriorityQueue::recv (lines 91-102) in the sequential model: on an
empty heap the call blocks, so no transition happens; otherwise the
popped entry becomes an outstanding guard. -/
def pqRecv (s : PQState) : PQState :=
  match popMax s.heap with
  | none => s
  | some (e, rest) => { s with heap := rest, guards := s.guards ++ [e] }

/-- Drop of a ReceiveGuard (lines 239-249): fetch_sub(1) on in_progress
and, when the old value was 1, send_drained.  The index selects which of
the outstanding guards is dropped. -/
def pqDropGuard (s : PQState) (i : Nat) : PQState :=
  if i < s.guards.length then
    let s1 : PQState :=
      { s with guards := s.guards.eraseIdx i, inProgress := s.inProgress - 1 }
    if s.inProgress = 1 then pqSendDrained s1 else s1
  else s

/-- PriorityQueue::try_recv (lines 105-111) with the lock uncontended:
the entry it would deliver, none when the heap is empty. -/
def pqTryRecvEntry (s : PQState) : Option QueueEntry :=
  (popMax s.heap).map Prod.fst

/-- One queue operation of an interleaving: a send, a (blocking) recv, or
the destruction of the i-th outstanding receive guard. -/
inductive PQOp where
  | send (k p : Nat)
  | recv
  | drop (i : Nat)
deriving DecidableEq

def pqStep (s : PQState) : PQOp → PQState
  | .send k p => pqSend s k p
  | .recv => pqRecv s
  | .drop i => pqDropGuard s i

/-- Execution of a sequence of queue operations from the initial state. -/
def runOps (ops : List PQOp) : PQState := ops.foldl pqStep initPQ

def entIsItem : QueueEntry → Bool
  | .item _ _ => true
  | _ => false

def itemData : QueueEntry → Option (Nat × Nat)
  | .item k p => some (k, p)
  | _ => none

/-- Priorities of the items of a delivery sequence, in order. -/
def prioList (l : List QueueEntry) : List Nat :=
  (l.filterMap itemData).map Prod.snd

def itemCount (l : List QueueEntry) : Nat :=
  (l.filter entIsItem).length

def drainedCount (l : List QueueEntry) : Nat :=
  (l.filter (fun e => e == QueueEntry.drained)).length

def notTaken (e : QueueEntry) : Prop := e ≠ QueueEntry.taken

/-! ### selectMax and popMax lemmas -/

theorem qcmp_refl (a : QueueEntry) : qcmp a a = .eq := by
  cases a <;> simp [qcmp, byteCmp_laws.refl]

theorem qcmp_swap {a b : QueueEntry} (ha : notTaken a) (hb : notTaken b) :
    qcmp a b = (qcmp b a).swap := by
  cases a <;> cases b <;> simp_all [qcmp, notTaken, Ordering.swap] <;>
    exact byteCmp_laws.swap _ _

theorem byteCmp_gt_iff {a b : Nat} : byteCmp a b = .gt ↔ b < a := by
  rw [byteCmp_laws.gt_iff_lt, byteCmp_lt_iff]

theorem qcmp_ngt_trans {a b c : QueueEntry}
    (ha : notTaken a) (hb : notTaken b) (hc : notTaken c)
    (h1 : qcmp a b ≠ .gt) (h2 : qcmp b c ≠ .gt) : qcmp a c ≠ .gt := by
  cases a <;> cases b <;> cases c <;>
    simp_all [qcmp, notTaken, byteCmp_gt_iff] <;> omega

theorem selectMax_perm : ∀ (xs : List QueueEntry) (b : QueueEntry),
    (b :: xs).Perm ((selectMax b xs).1 :: (selectMax b xs).2) := by
  intro xs
  induction xs with
  | nil => intro b; simp [selectMax]
  | cons x xs ih =>
    intro b
    by_cases h : qcmp x b = .gt
    · simp only [selectMax, h, ite_true]
      have h1 : (b :: x :: xs).Perm (b :: (selectMax x xs).1 :: (selectMax x xs).2) :=
        (ih x).cons b
      exact h1.trans (List.Perm.swap _ b _)
    · simp only [selectMax, h, ite_false]
      have h1 : (b :: x :: xs).Perm (x :: b :: xs) := List.Perm.swap x b xs
      have h2 : (x :: b :: xs).Perm (x :: (selectMax b xs).1 :: (selectMax b xs).2) :=
        (ih b).cons x
      exact (h1.trans h2).trans (List.Perm.swap _ x _)

theorem selectMax_length (xs : List QueueEntry) (b : QueueEntry) :
    (selectMax b xs).2.length = xs.length := by
  have h := (selectMax_perm xs b).length_eq
  simpa using h.symm

theorem selectMax_mem (xs : List QueueEntry) (b : QueueEntry) :
    (selectMax b xs).1 ∈ b :: xs :=
  (selectMax_perm xs b).mem_iff.mpr (by simp)

theorem selectMax_seed : ∀ (xs : List QueueEntry) (b : QueueEntry),
    (∀ e ∈ b :: xs, notTaken e) → qcmp b (selectMax b xs).1 ≠ .gt := by
  intro xs
  induction xs with
  | nil =>
    intro b _
    simp [selectMax, qcmp_refl]
  | cons x xs ih =>
    intro b hwf
    have hb : notTaken b := hwf b (by simp)
    have hx : notTaken x := hwf x (by simp)
    have hwfx : ∀ e ∈ x :: xs, notTaken e := fun e he => hwf e (by
      rcases List.mem_cons.mp he with h | h
      · simp [h]
      · simp [h])
    have hwfb : ∀ e ∈ b :: xs, notTaken e := fun e he => hwf e (by
      rcases List.mem_cons.mp he with h | h
      · simp [h]
      · simp [h])
    by_cases h : qcmp x b = .gt
    · simp only [selectMax, h, ite_true]
      have hbx : qcmp b x ≠ .gt := by
        rw [qcmp_swap hb hx, h]
        simp [Ordering.swap]
      have hm : notTaken (selectMax x xs).1 := hwfx _ (selectMax_mem xs x)
      exact qcmp_ngt_trans hb hx hm hbx (ih x hwfx)
    · simp only [selectMax, h, ite_false]
      exact ih b hwfb

theorem selectMax_max : ∀ (xs : List QueueEntry) (b : QueueEntry),
    (∀ e ∈ b :: xs, notTaken e) →
    ∀ y ∈ b :: xs, qcmp y (selectMax b xs).1 ≠ .gt := by
  intro xs
  induction xs with
  | nil =>
    intro b _ y hy
    have : y = b := by simpa using hy
    subst this
    simp [selectMax, qcmp_refl]
  | cons x xs ih =>
    intro b hwf y hy
    have hb : notTaken b := hwf b (by simp)
    have hx : notTaken x := hwf x (by simp)
    have hwfx : ∀ e ∈ x :: xs, notTaken e := fun e he => hwf e (by
      rcases List.mem_cons.mp he with h | h
      · simp [h]
      · simp [h])
    have hwfb : ∀ e ∈ b :: xs, notTaken e := fun e he => hwf e (by
      rcases List.mem_cons.mp he with h | h
      · simp [h]
      · simp [h])
    by_cases h : qcmp x b = .gt
    · simp only [selectMax, h, ite_true]
      rcases List.mem_cons.mp hy with hyb | hy2
      · subst hyb
        have hbx : qcmp y x ≠ .gt := by
          rw [qcmp_swap hb hx, h]
          simp [Ordering.swap]
        have hm : notTaken (selectMax x xs).1 := hwfx _ (selectMax_mem xs x)
        exact qcmp_ngt_trans hb hx hm hbx (selectMax_seed xs x hwfx)
      · exact ih x hwfx y hy2
    · simp only [selectMax, h, ite_false]
      rcases List.mem_cons.mp hy with hyb | hy2
      · subst hyb
        exact selectMax_seed xs y hwfb
      · rcases List.mem_cons.mp hy2 with hyx | hy3
        · subst hyx
          have hm : notTaken (selectMax b xs).1 := hwfb _ (selectMax_mem xs b)
          exact qcmp_ngt_trans hx hb hm h (selectMax_seed xs b hwfb)
        · exact ih b hwfb y (List.mem_cons_of_mem b hy3)

theorem popMax_perm {l : List QueueEntry} {e : QueueEntry} {rest : List QueueEntry}
    (h : popMax l = some (e, rest)) : l.Perm (e :: rest) := by
  cases l with
  | nil => simp [popMax] at h
  | cons x xs =>
    simp only [popMax, Option.some.injEq] at h
    have hp := selectMax_perm xs x
    rw [h] at hp
    exact hp

theorem popMax_max {l : List QueueEntry} {e : QueueEntry} {rest : List QueueEntry}
    (hwf : ∀ x ∈ l, notTaken x) (h : popMax l = some (e, rest)) :
    ∀ y ∈ l, qcmp y e ≠ .gt := by
  cases l with
  | nil => simp [popMax] at h
  | cons x xs =>
    simp only [popMax, Option.some.injEq] at h
    intro y hy
    have hm := selectMax_max xs x hwf y hy
    rw [h] at hm
    exact hm

theorem popMax_length {l : List QueueEntry} {e : QueueEntry} {rest : List QueueEntry}
    (h : popMax l = some (e, rest)) : rest.length + 1 = l.length := by
  have := (popMax_perm h).length_eq
  simpa using this.symm

theorem popMax_none_iff {l : List QueueEntry} : popMax l = none ↔ l = [] := by
  cases l <;> simp [popMax]

/-! ### Reachable-state invariants of the queue -/

theorem itemCount_append (l1 l2 : List QueueEntry) :
    itemCount (l1 ++ l2) = itemCount l1 + itemCount l2 := by
  simp [itemCount, List.filter_append]

theorem drainedCount_append (l1 l2 : List QueueEntry) :
    drainedCount (l1 ++ l2) = drainedCount l1 + drainedCount l2 := by
  simp [drainedCount, List.filter_append]

theorem itemCount_perm {l1 l2 : List QueueEntry} (h : l1.Perm l2) :
    itemCount l1 = itemCount l2 := (h.filter _).length_eq

theorem drainedCount_perm {l1 l2 : List QueueEntry} (h : l1.Perm l2) :
    drainedCount l1 = drainedCount l2 := (h.filter _).length_eq

theorem itemCount_eraseIdx_le (l : List QueueEntry) (i : Nat) :
    itemCount (l.eraseIdx i) ≤ itemCount l :=
  ((List.eraseIdx_sublist l i).filter _).length_le

theorem drainedCount_eraseIdx_le (l : List QueueEntry) (i : Nat) :
    drainedCount (l.eraseIdx i) ≤ drainedCount l :=
  ((List.eraseIdx_sublist l i).filter _).length_le

/-- Invariant of every reachable queue state: no Taken entries; the
in_progress counter equals the number of outstanding entries (queued plus
held by a guard); a drained queue holds no outstanding items; in_progress
zero forces is_drained; and at most one Drained entry is outstanding. -/
structure PQInv (s : PQState) : Prop where
  heap_wf : ∀ e ∈ s.heap, notTaken e
  guards_wf : ∀ e ∈ s.guards, notTaken e
  count : s.inProgress = s.heap.length + s.guards.length
  drained_no_items : s.isDrained = true → itemCount s.heap + itemCount s.guards = 0
  zero_drained : s.inProgress = 0 → s.isDrained = true
  one_drained : drainedCount s.heap + drainedCount s.guards ≤ 1

theorem pqInv_init : PQInv initPQ := by
  refine ⟨?_, ?_, ?_, ?_, ?_, ?_⟩ <;> simp [initPQ, itemCount, drainedCount]

theorem pqInv_step {s : PQState} (hs : PQInv s) (op : PQOp) : PQInv (pqStep s op) := by
  obtain ⟨h1, h2, h3, h4, h5, h6⟩ := hs
  cases op with
  | send k p =>
    simp only [pqStep, pqSend]
    refine ⟨?_, h2, ?_, ?_, ?_, ?_⟩
    · intro e he
      rcases List.mem_cons.mp he with h | h
      · subst h; simp [notTaken]
      · exact h1 e h
    · simp only [List.length_cons]; omega
    · intro hcon; simp at hcon
    · intro hcon; simp at hcon
    · have : drainedCount (QueueEntry.item k p :: s.heap) = drainedCount s.heap := by
        simp [drainedCount, List.filter_cons]
      simp only [this]; exact h6
  | recv =>
    simp only [pqStep, pqRecv]
    cases hpop : popMax s.heap with
    | none => exact ⟨h1, h2, h3, h4, h5, h6⟩
    | some er =>
      obtain ⟨e, rest⟩ := er
      dsimp only
      have hperm := popMax_perm hpop
      have hlen := popMax_length hpop
      have hic : itemCount s.heap = itemCount [e] + itemCount rest := by
        rw [itemCount_perm hperm]
        exact itemCount_append [e] rest
      have hdc : drainedCount s.heap = drainedCount [e] + drainedCount rest := by
        rw [drainedCount_perm hperm]
        exact drainedCount_append [e] rest
      refine ⟨?_, ?_, ?_, ?_, h5, ?_⟩
      · intro x hx
        exact h1 x (hperm.mem_iff.mpr (List.mem_cons_of_mem e hx))
      · intro x hx
        rcases List.mem_append.mp hx with h | h
        · exact h2 x h
        · have : x = e := by simpa using h
          subst this
          exact h1 x (hperm.mem_iff.mpr (List.mem_cons_self x rest))
      · simp only [List.length_append, List.length_cons, List.length_nil]
        omega
      · intro hdr
        have h0 := h4 hdr
        show itemCount rest + itemCount (s.guards ++ [e]) = 0
        rw [itemCount_append]
        omega
      · show drainedCount rest + drainedCount (s.guards ++ [e]) ≤ 1
        rw [drainedCount_append]
        omega
  | drop i =>
    simp only [pqStep, pqDropGuard]
    by_cases hi : i < s.guards.length
    case neg => simp only [hi, ite_false]; exact ⟨h1, h2, h3, h4, h5, h6⟩
    case pos =>
    simp only [hi, ite_true]
    have hgpos : 1 ≤ s.guards.length := by omega
    by_cases hip : s.inProgress = 1
    · simp only [hip, ite_true]
      have hglen : s.guards.length = 1 := by omega
      have hhlen : s.heap.length = 0 := by omega
      have hheap : s.heap = [] := List.length_eq_zero.mp hhlen
      obtain ⟨g, hg⟩ := List.length_eq_one.mp hglen
      have hi0 : i = 0 := by omega
      subst hi0
      have herase : s.guards.eraseIdx 0 = [] := by rw [hg]; rfl
      unfold pqSendDrained
      by_cases hdr : s.isDrained = false
      · simp only [herase, hdr, ite_true]
        refine ⟨?_, ?_, ?_, ?_, ?_, ?_⟩
        · intro e he
          rcases List.mem_cons.mp he with h | h
          · subst h; simp [notTaken]
          · rw [hheap] at h; simp at h
        · intro e he; simp at he
        · simp [hheap]
        · intro _
          rw [hheap]
          simp [itemCount, drainedCount, entIsItem]
        · intro hcon; simp at hcon
        · rw [hheap]
          simp [drainedCount, List.filter_cons]
      · simp only [herase, hdr, ite_false]
        refine ⟨?_, ?_, ?_, ?_, ?_, ?_⟩
        · intro e he; rw [hheap] at he; simp at he
        · intro e he; simp at he
        · simp [hheap]
        · intro _; rw [hheap]; simp [itemCount]
        · intro _; simpa using hdr
        · rw [hheap]; simp [drainedCount]
    · simp only [hip, ite_false]
      have hle1 := itemCount_eraseIdx_le s.guards i
      have hle2 := drainedCount_eraseIdx_le s.guards i
      refine ⟨h1, ?_, ?_, ?_, ?_, ?_⟩
      · intro e he
        exact h2 e ((List.eraseIdx_sublist s.guards i).subset he)
      · show s.inProgress - 1 = s.heap.length + (s.guards.eraseIdx i).length
        rw [List.length_eraseIdx_of_lt hi]
        omega
      · intro hdr
        have h0 := h4 hdr
        show itemCount s.heap + itemCount (s.guards.eraseIdx i) = 0
        omega
      · intro hcon
        exact absurd (show s.inProgress - 1 = 0 from hcon) (by omega)
      · show drainedCount s.heap + drainedCount (s.guards.eraseIdx i) ≤ 1
        omega

theorem pqInv_fold (ops : List PQOp) : ∀ s, PQInv s → PQInv (ops.foldl pqStep s) := by
  induction ops with
  | nil => intro s hs; exact hs
  | cons op ops ih => intro s hs; exact ih _ (pqInv_step hs op)

theorem pqInv_run (ops : List PQOp) : PQInv (runOps ops) :=
  pqInv_fold ops initPQ pqInv_init

/-- Dropping the guard of the last outstanding item (in_progress == 1)
injects exactly one Drained entry: before the drop no Drained is
outstanding, afterwards the heap holds exactly the Drained entry. -/
theorem pqDrop_quiesce_item {s : PQState} (hinv : PQInv s) {i : Nat}
    (hitem : entIsItem (s.guards.getD i QueueEntry.taken) = true)
    (hip : s.inProgress = 1) :
    drainedCount s.heap + drainedCount s.guards = 0 ∧
    pqDropGuard s i = ⟨[QueueEntry.drained], 1, true, []⟩ := by
  obtain ⟨sh, sip, sdr, sg⟩ := s
  obtain ⟨h1, h2, h3, h4, h5, h6⟩ := hinv
  simp only at hitem hip h3 h4 h5 h6 ⊢
  subst hip
  by_cases hi : i < sg.length
  case neg =>
    rw [List.getD_eq_default _ _ (Nat.le_of_not_lt hi)] at hitem
    simp [entIsItem] at hitem
  case pos =>
  have hglen : sg.length = 1 := by omega
  have hheap : sh = [] := List.length_eq_zero.mp (by omega)
  obtain ⟨g, hg⟩ := List.length_eq_one.mp hglen
  have hi0 : i = 0 := by omega
  subst hi0; subst hheap; subst hg
  simp only [List.getD, List.get?, Option.getD_some] at hitem
  obtain ⟨kp, hkp⟩ : ∃ kp : Nat × Nat, g = QueueEntry.item kp.1 kp.2 := by
    cases g with
    | item k p => exact ⟨(k, p), rfl⟩
    | drained => simp [entIsItem] at hitem
    | taken => simp [entIsItem] at hitem
  subst hkp
  have hdr : sdr = false := by
    cases sdr with
    | true =>
      have := h4 rfl
      simp [itemCount, List.filter_cons, entIsItem] at this
    | false => rfl
  subst hdr
  constructor
  · simp [drainedCount, List.filter_cons]
  · simp [pqDropGuard, pqSendDrained]

/-- Dropping the guard of the Drained entry itself in the quiescent state
(in_progress == 1 held by that guard, is_drained still set) injects
nothing: the queue returns to the idle drained state. -/
theorem pqDrop_quiesce_drained {s : PQState} (hinv : PQInv s) {i : Nat}
    (hdrg : s.guards.getD i QueueEntry.taken = QueueEntry.drained)
    (hip : s.inProgress = 1) (hisdr : s.isDrained = true) :
    pqDropGuard s i = ⟨[], 0, true, []⟩ := by
  obtain ⟨sh, sip, sdr, sg⟩ := s
  obtain ⟨h1, h2, h3, h4, h5, h6⟩ := hinv
  simp only at hdrg hip hisdr h3 ⊢
  subst hip; subst hisdr
  by_cases hi : i < sg.length
  case neg =>
    rw [List.getD_eq_default _ _ (Nat.le_of_not_lt hi)] at hdrg
    simp at hdrg
  case pos =>
  have hglen : sg.length = 1 := by omega
  have hheap : sh = [] := List.length_eq_zero.mp (by omega)
  obtain ⟨g, hg⟩ := List.length_eq_one.mp hglen
  have hi0 : i = 0 := by omega
  subst hi0; subst hheap; subst hg
  simp only [List.getD, List.get?, Option.getD_some] at hdrg
  subst hdrg
  simp [pqDropGuard, pqSendDrained]

/-- Claim C2: on every interleaving of queue operations, the destruction
of the receive guard of the last outstanding item (in_progress dropping
from 1 to 0) pushes exactly one Drained entry; destroying the guard of
that Drained in the quiescent state pushes nothing and returns the queue
to the idle drained state; a subsequent send re-arms the cycle by
clearing is_drained; and no reachable state ever holds more than one
outstanding Drained entry. -/
theorem claim_C2_drained_cycle (ops : List PQOp) :
    (drainedCount (runOps ops).heap + drainedCount (runOps ops).guards ≤ 1) ∧
    (∀ i, entIsItem ((runOps ops).guards.getD i QueueEntry.taken) = true →
      (runOps ops).inProgress = 1 →
      drainedCount (runOps ops).heap + drainedCount (runOps ops).guards = 0 ∧
      pqDropGuard (runOps ops) i = ⟨[QueueEntry.drained], 1, true, []⟩) ∧
    (∀ i, (runOps ops).guards.getD i QueueEntry.taken = QueueEntry.drained →
      (runOps ops).inProgress = 1 → (runOps ops).isDrained = true →
      pqDropGuard (runOps ops) i = ⟨[], 0, true, []⟩) ∧
    (∀ k p, (pqStep (runOps ops) (.send k p)).isDrained = false ∧
      (pqStep (runOps ops) (.send k p)).inProgress = (runOps ops).inProgress + 1) := by
  have hinv := pqInv_run ops
  refine ⟨hinv.one_drained, ?_, ?_, ?_⟩
  · intro i hitem hip
    exact pqDrop_quiesce_item hinv hitem hip
  · intro i hdrg hip hisdr
    exact pqDrop_quiesce_drained hinv hdrg hip hisdr
  · intro k p
    exact ⟨rfl, rfl⟩

/-- Witness for claim C2: after one send and one recv the single guard
holds the item; dropping it injects the Drained entry. -/
theorem claim_C2_witness :
    entIsItem ((runOps [.send 5 3, .recv]).guards.getD 0 QueueEntry.taken) = true ∧
    pqDropGuard (runOps [.send 5 3, .recv]) 0 = ⟨[QueueEntry.drained], 1, true, []⟩ :=
  ⟨by decide,
    ((claim_C2_drained_cycle [.send 5 3, .recv]).2.1 0 (by decide) (by decide)).2⟩

/-- Claim C3, counterexample to the unamended claim: after one send, one
recv and the destruction of that guard, no sent item is outstanding, yet
in_progress is 1, because the injected Drained entry is also counted; a
guard destruction therefore does not always change in_progress by exactly
minus one (here the net change over the drop is zero). -/
theorem claim_C3_counterexample :
    (runOps [.send 5 7, .recv, .drop 0]).inProgress = 1 ∧
    itemCount (runOps [.send 5 7, .recv, .drop 0]).heap +
      itemCount (runOps [.send 5 7, .recv, .drop 0]).guards = 0 := by
  decide

/-- Claim C3 (amended): at every reachable state, in_progress equals the
number of outstanding entries, namely the entries in the heap plus the
entries held by live receive guards, where the injected Drained entry
counts as well: send and the injection of Drained increment the counter
by one each, and every guard destruction decrements it by one (possibly
followed by a Drained injection incrementing it again). -/
theorem claim_C3_in_progress_counts_outstanding (ops : List PQOp) :
    (runOps ops).inProgress =
      (runOps ops).heap.length + (runOps ops).guards.length :=
  (pqInv_run ops).count

/-! ### The sequential send-then-receive scenario (claim C1) -/

/-- Receive an entry and immediately destroy its guard, n times,
collecting the delivered entries in order; a recv on an empty heap blocks,
so the collection stops there. -/
def recvDropN : PQState → Nat → List QueueEntry × PQState
  | s, 0 => ([], s)
  | s, n + 1 =>
    match popMax s.heap with
    | none => ([], s)
    | some (e, _) =>
      let s2 := pqStep (pqStep s .recv) (.drop s.guards.length)
      let r := recvDropN s2 n
      (e :: r.1, r.2)

/-- Send the given (payload, priority) pairs, in order, on a fresh queue. -/
def sendAll (ps : List (Nat × Nat)) : PQState :=
  ps.foldl (fun s kp => pqSend s kp.1 kp.2) initPQ

theorem entIsItem_notTaken {e : QueueEntry} (h : entIsItem e = true) : notTaken e := by
  cases e <;> simp [entIsItem, notTaken] at *

theorem entIsItem_shape {e : QueueEntry} (h : entIsItem e = true) :
    ∃ k p, e = QueueEntry.item k p := by
  cases e with
  | item k p => exact ⟨k, p, rfl⟩
  | drained => simp [entIsItem] at h
  | taken => simp [entIsItem] at h

theorem prioList_cons_item (k p : Nat) (l : List QueueEntry) :
    prioList (QueueEntry.item k p :: l) = p :: prioList l := by
  simp [prioList, List.filterMap_cons, itemData]

theorem mem_prioList {l : List QueueEntry} {q : Nat} (hq : q ∈ prioList l) :
    ∃ k, QueueEntry.item k q ∈ l := by
  unfold prioList at hq
  rw [List.mem_map] at hq
  obtain ⟨pr, hpr, hsnd⟩ := hq
  rw [List.mem_filterMap] at hpr
  obtain ⟨y, hy, hyd⟩ := hpr
  cases y with
  | item k p =>
    simp only [itemData, Option.some.injEq] at hyd
    refine ⟨k, ?_⟩
    rw [← hsnd, ← hyd]
    exact hy
  | drained => simp [itemData] at hyd
  | taken => simp [itemData] at hyd

theorem prioList_perm {l1 l2 : List QueueEntry}
    (h : (l1.filterMap itemData).Perm (l2.filterMap itemData)) :
    (prioList l1).Perm (prioList l2) := h.map _

/-- Draining a queue that holds exactly its n in-progress items, with no
outstanding guards: the n receive-and-drop rounds deliver the items in
non-decreasing priority order, and the n-th guard drop leaves the queue
holding exactly the injected Drained entry. -/
theorem drain_loop : ∀ (n : Nat) (s : PQState),
    s.heap.length = n →
    (∀ e ∈ s.heap, entIsItem e = true) →
    s.guards = [] →
    s.inProgress = n →
    s.isDrained = false →
    n ≠ 0 →
    (recvDropN s n).1.length = n ∧
    (∀ e ∈ (recvDropN s n).1, entIsItem e = true) ∧
    List.Sorted (· ≤ ·) (prioList (recvDropN s n).1) ∧
    ((recvDropN s n).1.filterMap itemData).Perm (s.heap.filterMap itemData) ∧
    (recvDropN s n).2 = ⟨[QueueEntry.drained], 1, true, []⟩ := by
  intro n
  induction n with
  | zero => intro s _ _ _ _ _ h; exact absurd rfl h
  | succ n ih =>
    intro s hlen hitems hg hip hdr _
    obtain ⟨sh, sip, sdr, sg⟩ := s
    simp only at hlen hitems hg hip hdr
    subst hg; subst hip; subst hdr
    obtain ⟨e, rest, hpop⟩ : ∃ e rest, popMax sh = some (e, rest) := by
      cases hp : popMax sh with
      | none =>
        rw [popMax_none_iff] at hp
        rw [hp] at hlen
        simp at hlen
      | some er =>
        obtain ⟨a, b⟩ := er
        exact ⟨a, b, rfl⟩
    have hperm := popMax_perm hpop
    have hrlen := popMax_length hpop
    have he : e ∈ sh := hperm.mem_iff.mpr (List.mem_cons_self e rest)
    obtain ⟨k, p, hekp⟩ := entIsItem_shape (hitems e he)
    subst hekp
    have hwf : ∀ x ∈ sh, notTaken x := fun x hx => entIsItem_notTaken (hitems x hx)
    have hrest_items : ∀ x ∈ rest, entIsItem x = true := fun x hx =>
      hitems x (hperm.mem_iff.mpr (List.mem_cons_of_mem _ hx))
    have hstep : recvDropN ⟨sh, n + 1, false, []⟩ (n + 1) =
        (QueueEntry.item k p ::
          (recvDropN (pqStep (pqStep ⟨sh, n + 1, false, []⟩ .recv) (.drop 0)) n).1,
         (recvDropN (pqStep (pqStep ⟨sh, n + 1, false, []⟩ .recv) (.drop 0)) n).2) := by
      simp only [recvDropN, hpop, List.length_nil]
    have hrecv : pqStep (⟨sh, n + 1, false, []⟩ : PQState) .recv =
        ⟨rest, n + 1, false, [QueueEntry.item k p]⟩ := by
      simp [pqStep, pqRecv, hpop]
    by_cases hn : n = 0
    · subst hn
      have hrest : rest = [] := List.length_eq_zero.mp (by omega)
      subst hrest
      have hdropstep : pqStep (⟨[], 1, false, [QueueEntry.item k p]⟩ : PQState) (.drop 0) =
          ⟨[QueueEntry.drained], 1, true, []⟩ := by
        simp [pqStep, pqDropGuard, pqSendDrained]
      rw [hstep, hrecv, hdropstep]
      refine ⟨rfl, ?_, ?_, ?_, rfl⟩
      · intro x hx
        have hx2 : x = QueueEntry.item k p := by
          simpa [recvDropN] using hx
        subst hx2; rfl
      · show List.Sorted (· ≤ ·) (prioList [QueueEntry.item k p])
        simp [prioList, List.filterMap_cons, itemData]
      · show ([QueueEntry.item k p].filterMap itemData).Perm (sh.filterMap itemData)
        exact (hperm.filterMap itemData).symm
    · have hdropstep : pqStep (⟨rest, n + 1, false, [QueueEntry.item k p]⟩ : PQState)
          (.drop 0) = ⟨rest, n, false, []⟩ := by
        have hne : ¬ (n + 1 = 1) := by omega
        simp [pqStep, pqDropGuard, hne]
      rw [hstep, hrecv, hdropstep]
      have hres := ih ⟨rest, n, false, []⟩ (show rest.length = n by omega)
        hrest_items rfl rfl rfl hn
      obtain ⟨r1, r2, r3, r4, r5⟩ := hres
      refine ⟨by simpa using r1, ?_, ?_, ?_, r5⟩
      · intro x hx
        rcases List.mem_cons.mp hx with h | h
        · subst h; rfl
        · exact r2 x h
      · show List.Sorted (· ≤ ·)
          (prioList (QueueEntry.item k p ::
            (recvDropN (⟨rest, n, false, []⟩ : PQState) n).1))
        rw [prioList_cons_item, List.sorted_cons]
        refine ⟨?_, r3⟩
        intro q hq
        have hq2 : q ∈ prioList rest := (prioList_perm r4).mem_iff.mp hq
        obtain ⟨k2, hk2⟩ := mem_prioList hq2
        have hy : QueueEntry.item k2 q ∈ sh :=
          hperm.mem_iff.mpr (List.mem_cons_of_mem _ hk2)
        have hmax := popMax_max hwf hpop (QueueEntry.item k2 q) hy
        simp only [qcmp] at hmax
        have hnlt : ¬ q < p := fun hlt => hmax (byteCmp_gt_iff.mpr hlt)
        omega
      · show ((QueueEntry.item k p ::
            (recvDropN (⟨rest, n, false, []⟩ : PQState) n).1).filterMap itemData).Perm
          (sh.filterMap itemData)
        have hl : (QueueEntry.item k p ::
            (recvDropN (⟨rest, n, false, []⟩ : PQState) n).1).filterMap itemData =
            (k, p) :: ((recvDropN (⟨rest, n, false, []⟩ : PQState) n).1.filterMap itemData) := by
          simp [List.filterMap_cons, itemData]
        have hr : (QueueEntry.item k p :: rest).filterMap itemData =
            (k, p) :: rest.filterMap itemData := by
          simp [List.filterMap_cons, itemData]
        rw [hl]
        refine (r4.cons (k, p)).trans ?_
        rw [← hr]
        exact (hperm.filterMap itemData).symm

theorem recvDropN_add (a b : Nat) : ∀ s : PQState,
    recvDropN s (a + b) =
      ((recvDropN s a).1 ++ (recvDropN (recvDropN s a).2 b).1,
       (recvDropN (recvDropN s a).2 b).2) := by
  induction a with
  | zero =>
    intro s
    rw [Nat.zero_add]
    show recvDropN s b = (([] : List QueueEntry) ++ (recvDropN s b).1, (recvDropN s b).2)
    simp
  | succ a ih =>
    intro s
    rw [show a + 1 + b = (a + b) + 1 from by omega]
    cases hpop : popMax s.heap with
    | none =>
      have h1 : recvDropN s (a + b + 1) = ([], s) := by
        simp [recvDropN, hpop]
      have h2 : recvDropN s (a + 1) = ([], s) := by
        simp [recvDropN, hpop]
      have h3 : recvDropN s b = ([], s) := by
        cases b with
        | zero => rfl
        | succ b2 => simp [recvDropN, hpop]
      rw [h1, h2]
      simp [h3]
    | some er =>
      obtain ⟨e, rest⟩ := er
      have h1 : recvDropN s (a + b + 1) =
          (e :: (recvDropN (pqStep (pqStep s .recv) (.drop s.guards.length)) (a + b)).1,
           (recvDropN (pqStep (pqStep s .recv) (.drop s.guards.length)) (a + b)).2) := by
        simp only [recvDropN, hpop]
      have h2 : recvDropN s (a + 1) =
          (e :: (recvDropN (pqStep (pqStep s .recv) (.drop s.guards.length)) a).1,
           (recvDropN (pqStep (pqStep s .recv) (.drop s.guards.length)) a).2) := by
        simp only [recvDropN, hpop]
      rw [h1, h2, ih]
      simp

theorem sendAll_spec (ps : List (Nat × Nat)) :
    (sendAll ps).heap = ps.reverse.map (fun kp => QueueEntry.item kp.1 kp.2) ∧
    (sendAll ps).inProgress = ps.length ∧
    (sendAll ps).guards = [] ∧
    (ps ≠ [] → (sendAll ps).isDrained = false) := by
  induction ps using List.reverseRecOn with
  | nil => exact ⟨rfl, rfl, rfl, fun h => absurd rfl h⟩
  | append_singleton ps q ih =>
    obtain ⟨i1, i2, i3, _⟩ := ih
    have hs : sendAll (ps ++ [q]) = pqSend (sendAll ps) q.1 q.2 := by
      simp [sendAll, List.foldl_append]
    rw [hs]
    refine ⟨?_, ?_, i3, fun _ => rfl⟩
    · simp [pqSend, i1]
    · simp [pqSend, i2]

/-- Claim C1, counterexample to the unamended claim: after a send, a
receive with its guard destroyed (which injects Drained), and a second
send, the heap holds both the Drained entry and the new item; because the
queue-entry ordering makes Drained the greatest entry and the max-heap
delivers the greatest entry first, the next recv returns Drained while
Item(20, 2) still remains in the heap. -/
theorem claim_C1_counterexample :
    pqTryRecvEntry (runOps [.send 10 1, .recv, .drop 0, .send 20 2]) =
      some QueueEntry.drained ∧
    QueueEntry.item 20 2 ∈ (runOps [.send 10 1, .recv, .drop 0, .send 20 2]).heap ∧
    (pqRecv (runOps [.send 10 1, .recv, .drop 0, .send 20 2])).guards.getLast? =
      some QueueEntry.drained ∧
    QueueEntry.item 20 2 ∈ (pqRecv (runOps [.send 10 1, .recv, .drop 0, .send 20 2])).heap := by
  decide

/-- Claim C1 (amended): for a fresh queue, after sends with priorities
p_1 .. p_n (n at least 1) followed by successive receive-and-destroy
rounds, the deliveries are exactly the n sent items in non-decreasing
priority order followed by exactly one Drained, after which try_recv
returns none until the next send, which is then delivered again.  In the
queue-entry ordering Drained compares greater than ("after") every item;
since the Rust BinaryHeap is a max-heap this means Drained would be
delivered before, not after, any item that is queued alongside it (see
the counterexample); in this scenario no item remains queued when Drained
is delivered, so the delivery order stated above still holds. -/
theorem claim_C1_queue_ordering (ps : List (Nat × Nat)) (hps : ps ≠ []) :
    (recvDropN (sendAll ps) (ps.length + 1)).1.length = ps.length + 1 ∧
    (∀ e ∈ (recvDropN (sendAll ps) (ps.length + 1)).1.dropLast, entIsItem e = true) ∧
    (recvDropN (sendAll ps) (ps.length + 1)).1.getLast? = some QueueEntry.drained ∧
    List.Sorted (· ≤ ·) (prioList (recvDropN (sendAll ps) (ps.length + 1)).1) ∧
    ((recvDropN (sendAll ps) (ps.length + 1)).1.filterMap itemData).Perm ps ∧
    (recvDropN (sendAll ps) (ps.length + 1)).2 = ⟨[], 0, true, []⟩ ∧
    pqTryRecvEntry (recvDropN (sendAll ps) (ps.length + 1)).2 = none ∧
    (∀ k p, pqTryRecvEntry
      (pqStep (recvDropN (sendAll ps) (ps.length + 1)).2 (.send k p)) =
      some (QueueEntry.item k p)) ∧
    (∀ k p, qcmp QueueEntry.drained (QueueEntry.item k p) = .gt) := by
  obtain ⟨h1, h2, h3, h5⟩ := sendAll_spec ps
  have hdr := h5 hps
  have hlen0 : (sendAll ps).heap.length = ps.length := by rw [h1]; simp
  have hitems : ∀ e ∈ (sendAll ps).heap, entIsItem e = true := by
    rw [h1]
    intro e he
    rw [List.mem_map] at he
    obtain ⟨kp, _, hkp⟩ := he
    rw [← hkp]
    rfl
  have hn : ps.length ≠ 0 := fun h => hps (List.length_eq_zero.mp h)
  obtain ⟨d1, d2, d3, d4, d5⟩ :=
    drain_loop ps.length (sendAll ps) hlen0 hitems h3 h2 hdr hn
  have hlast : recvDropN (⟨[QueueEntry.drained], 1, true, []⟩ : PQState) 1 =
      ([QueueEntry.drained], (⟨[], 0, true, []⟩ : PQState)) := by decide
  have hout : recvDropN (sendAll ps) (ps.length + 1) =
      ((recvDropN (sendAll ps) ps.length).1 ++ [QueueEntry.drained],
       (⟨[], 0, true, []⟩ : PQState)) := by
    rw [recvDropN_add ps.length 1 (sendAll ps), d5, hlast]
  have hfm : (sendAll ps).heap.filterMap itemData = ps.reverse := by
    rw [h1, List.filterMap_map]
    have : itemData ∘ (fun kp : Nat × Nat => QueueEntry.item kp.1 kp.2) = some := by
      funext kp
      simp [itemData]
    rw [this, List.filterMap_some]
  rw [hout]
  refine ⟨?_, ?_, ?_, ?_, ?_, rfl, rfl, fun k p => rfl, fun k p => rfl⟩
  · simp [d1]
  · rw [List.dropLast_concat]
    exact d2
  · exact List.getLast?_concat _
  · show List.Sorted (· ≤ ·)
      (prioList ((recvDropN (sendAll ps) ps.length).1 ++ [QueueEntry.drained]))
    have : prioList ((recvDropN (sendAll ps) ps.length).1 ++ [QueueEntry.drained]) =
        prioList (recvDropN (sendAll ps) ps.length).1 := by
      simp [prioList, List.filterMap_append, itemData]
    rw [this]
    exact d3
  · have hap : ((recvDropN (sendAll ps) ps.length).1 ++
        [QueueEntry.drained]).filterMap itemData =
        (recvDropN (sendAll ps) ps.length).1.filterMap itemData := by
      simp [List.filterMap_append, itemData]
    rw [hap]
    refine d4.trans ?_
    rw [hfm]
    exact List.reverse_perm ps

/-- Witness for claim C1 at the concrete sends (10, 2), (20, 1), (30, 2):
the delivered priorities are sorted and end in the Drained marker. -/
theorem claim_C1_witness :
    (recvDropN (sendAll [(10, 2), (20, 1), (30, 2)]) 4).1.getLast? =
      some QueueEntry.drained ∧
    List.Sorted (· ≤ ·)
      (prioList (recvDropN (sendAll [(10, 2), (20, 1), (30, 2)]) 4).1) ∧
    ((recvDropN (sendAll [(10, 2), (20, 1), (30, 2)]) 4).1.filterMap itemData).Perm
      [(10, 2), (20, 1), (30, 2)] := by
  have h := claim_C1_queue_ordering [(10, 2), (20, 1), (30, 2)] (by decide)
  exact ⟨h.2.2.1, h.2.2.2.1, h.2.2.2.2.1⟩

/-! ## InventoryGatherer (inventory_gatherer.rs) -/

/-- openat SimpleType of a directory entry. -/
inductive SimpleType where
  | dir
  | file
  | symlink
  | other
deriving DecidableEq

/-- Directory entry as delivered by the readdir iteration: file name
bytes, optional simple type (from d_type) and inode number. -/
structure RawEntry where
  ename : List Nat
  stype : Option SimpleType
  ino : Nat
deriving DecidableEq

/-- Relevant metadata fields of dir.metadata: openat returns them as
options; the source falls back to 0 with unwrap_or. -/
structure EMeta where
  blocks : Option Nat
  dev : Option Nat
deriving DecidableEq

/-- Context tags attached by easy_error with_context in the gatherer,
carrying the offending path where the source formats one. -/
inductive ErrCtx where
  | invalidDirectoryEntry
  | failedGetMetadata (path : List Nat)
  | couldNotProcessEntry
  | couldNotIterate (path : List Nat)
  | couldNotOpen (path : List Nat)
deriving DecidableEq

/-- easy_error Error: a base io error (payload abstracted to a code) or a
context layer wrapped around a cause. -/
inductive GErr where
  | os (code : Nat)
  | ctx (c : ErrCtx) (cause : GErr)
deriving DecidableEq

/-- Message sent by process_entry: either a TraverseDirectory work item
pushed onto the dirs queue with its priority, or an inventory entry sent
to the output channel. -/
inductive GatherSend where
  | dirMsg (path : ObjectPath) (prio : Nat)
  | invEntry (dev : Nat) (blocks : Nat) (ino : Nat) (path : ObjectPath)
deriving DecidableEq

/-- Message on the inventory output channel
(InventoryEntriesMessage, inventory_gatherer.rs lines 291-296). -/
inductive InvMsg where
  | entry (dev : Nat) (blocks : Nat) (ino : Nat) (path : ObjectPath)
  | err (e : GErr)
  | done
deriving DecidableEq

/-- Priority attached to a sub-directory work item
(inventory_gatherer.rs lines 114-117): the 16-bit depth complement in the
top bits plus the entry's inode number. -/
def dirPrioOf (depth ino : Nat) : Nat := ((65535 - depth) <<< 48) + ino

/-- InventoryGatherer::process_entry (inventory_gatherer.rs lines
93-144).  The directory handle is abstracted into the metadata oracle
metaOf (dir.metadata looks the entry name up); interning returns the name
itself (see InternedName).  A directory entry enqueues a TraverseDirectory
message with the depth/inode priority; any other entry fetches metadata
and forwards it to the inventory channel only when blocks > min_blocks
(blocks defaulting to 0 when unavailable).  Errors are returned to the
caller, which wraps and forwards them. -/
def processEntry (minBlocks : Nat) (entryRes : Except GErr RawEntry)
    (metaOf : List Nat → Except GErr EMeta) (path : ObjectPath) :
    Except GErr (List GatherSend) :=
  match entryRes with
  | .error e => .error (GErr.ctx ErrCtx.invalidDirectoryEntry e)
  | .ok entry =>
    match entry.stype with
    | some SimpleType.dir =>
      let subdir := ObjectPath.sub path entry.ename
      let dirPrio := (65535 - subdir.depth) <<< 48
      .ok [GatherSend.dirMsg subdir (dirPrio + entry.ino)]
    | _ =>
      match metaOf entry.ename with
      | .error e =>
        .error (GErr.ctx
          (ErrCtx.failedGetMetadata (pushPath (ObjectPath.toPathbuf path) entry.ename)) e)
      | .ok md =>
        let blocks := md.blocks.getD 0
        if blocks > minBlocks then
          .ok [GatherSend.invEntry (md.dev.getD 0) blocks entry.ino
            (ObjectPath.sub path entry.ename)]
        else
          .ok []

/-- TraverseDirectory message (DirectoryGatherMessage, lines 258-267):
the path and whether a parent directory handle is attached (the handle
itself is abstract). -/
structure TraverseMsg where
  path : ObjectPath
  hasParent : Bool
deriving DecidableEq

/-- Entry received by a gatherer worker from the dirs queue. -/
inductive GatherQEntry where
  | msg (m : TraverseMsg) (prio : Nat)
  | drained
deriving DecidableEq

/-- Oracle for one directory visit: the result of the open (sub_dir or
absolute Dir::open), of list_self, and of each dir.metadata call. -/
structure DirOracle where
  openRes : Except GErr Unit
  listRes : Except GErr (List (Except GErr RawEntry))
  metaOf : List Nat → Except GErr EMeta

/-- Body of the worker loop of spawn_dir_thread (inventory_gatherer.rs
lines 158-209) for one received queue entry: the first component is the
sequence of messages sent on the inventory channel, the second is whether
the worker continues its receive loop (the source loop has no break, so
it always does).  Open and iterate errors are wrapped with the offending
path and forwarded; each entry error is wrapped with "Could not process
entry" and forwarded; Drained forwards Done. -/
def workerStep (minBlocks : Nat) (qe : GatherQEntry) (o : DirOracle) :
    List InvMsg × Bool :=
  match qe with
  | .drained => ([InvMsg.done], true)
  | .msg m _ =>
    match o.openRes with
    | .error e =>
      ([InvMsg.err (GErr.ctx (ErrCtx.couldNotOpen (ObjectPath.toPathbuf m.path)) e)], true)
    | .ok _ =>
      match o.listRes with
      | .error e =>
        ([InvMsg.err (GErr.ctx (ErrCtx.couldNotIterate (ObjectPath.toPathbuf m.path)) e)],
          true)
      | .ok entries =>
        (entries.flatMap (fun er =>
          match processEntry minBlocks er o.metaOf m.path with
          | .error e => [InvMsg.err (GErr.ctx ErrCtx.couldNotProcessEntry e)]
          | .ok sends => sends.filterMap (fun g =>
              match g with
              | GatherSend.invEntry dev blocks ino p2 => some (InvMsg.entry dev blocks ino p2)
              | GatherSend.dirMsg _ _ => none)), true)

/-- InventoryGatherer::load_dir_recursive (lines 212-218): root items are
enqueued at u64::MAX, the largest (lowest) priority. -/
def loadDirRecursivePrio : Nat := 2 ^ 64 - 1

/-- Paths mentioned by the context layers of an error record, outermost
first: the open, iterate and metadata contexts carry the offending path,
the other contexts carry none. -/
def errPaths : GErr → List (List Nat)
  | .os _ => []
  | .ctx c cause =>
    (match c with
     | ErrCtx.failedGetMetadata p => [p]
     | ErrCtx.couldNotIterate p => [p]
     | ErrCtx.couldNotOpen p => [p]
     | ErrCtx.invalidDirectoryEntry => []
     | ErrCtx.couldNotProcessEntry => []) ++ errPaths cause

/-- Claim C4, counterexample to the unamended claim: an entry whose
allocated block count equals min_blocks (here both 64) is dropped, not
forwarded, although 64 is at least 64: the code keeps an entry only when
blocks is strictly greater than min_blocks. -/
theorem claim_C4_counterexample :
    processEntry 64 (.ok ⟨[97], some SimpleType.file, 7⟩)
      (fun _ => .ok ⟨some 64, some 1⟩) (ObjectPath.base [47]) = .ok [] ∧
    64 ≥ 64 :=
  ⟨rfl, by omega⟩

/-- Claim C4 (amended): a non-directory entry is forwarded to the output
channel if and only if its allocated block count is strictly greater than
min_blocks (missing block counts default to 0); in particular the stream
delivered to the inventory never contains an entry with blocks at or
below min_blocks. -/
theorem claim_C4_block_filter (minBlocks : Nat) (entry : RawEntry)
    (metaOf : List Nat → Except GErr EMeta) (path : ObjectPath) (md : EMeta)
    (hnd : entry.stype ≠ some SimpleType.dir)
    (hmeta : metaOf entry.ename = .ok md) :
    (md.blocks.getD 0 > minBlocks →
      processEntry minBlocks (.ok entry) metaOf path =
        .ok [GatherSend.invEntry (md.dev.getD 0) (md.blocks.getD 0) entry.ino
          (ObjectPath.sub path entry.ename)]) ∧
    (md.blocks.getD 0 ≤ minBlocks →
      processEntry minBlocks (.ok entry) metaOf path = .ok []) ∧
    (∀ entryRes r, processEntry minBlocks entryRes metaOf path = .ok r →
      ∀ dev blocks ino p2, GatherSend.invEntry dev blocks ino p2 ∈ r →
        blocks > minBlocks) := by
  refine ⟨?_, ?_, ?_⟩
  · intro hgt
    obtain ⟨en, st, ino⟩ := entry
    simp only at hnd hmeta hgt ⊢
    rcases st with _ | s
    · simp [processEntry, hmeta, hgt]
    · cases s with
      | dir => exact absurd rfl hnd
      | file => simp [processEntry, hmeta, hgt]
      | symlink => simp [processEntry, hmeta, hgt]
      | other => simp [processEntry, hmeta, hgt]
  · intro hle
    have hngt : ¬ md.blocks.getD 0 > minBlocks := by omega
    obtain ⟨en, st, ino⟩ := entry
    simp only at hnd hmeta ⊢
    rcases st with _ | s
    · simp [processEntry, hmeta, hngt]
    · cases s with
      | dir => exact absurd rfl hnd
      | file => simp [processEntry, hmeta, hngt]
      | symlink => simp [processEntry, hmeta, hngt]
      | other => simp [processEntry, hmeta, hngt]
  · intro entryRes r hr dev blocks ino p2 hmem
    cases entryRes with
    | error e => simp [processEntry] at hr
    | ok e2 =>
      obtain ⟨en2, st2, ino2⟩ := e2
      have hdircase : ∀ (sub2 : ObjectPath) (pr : Nat),
          r = [GatherSend.dirMsg sub2 pr] → blocks > minBlocks := by
        intro sub2 pr hrr
        rw [hrr] at hmem
        simp at hmem
      have hothercase :
          (match metaOf en2 with
            | .error e =>
              Except.error (GErr.ctx (ErrCtx.failedGetMetadata
                (pushPath (ObjectPath.toPathbuf path) en2)) e)
            | .ok md2 =>
              if md2.blocks.getD 0 > minBlocks then
                Except.ok [GatherSend.invEntry (md2.dev.getD 0) (md2.blocks.getD 0) ino2
                  (ObjectPath.sub path en2)]
              else Except.ok ([] : List GatherSend)) = .ok r →
          blocks > minBlocks := by
        intro hr2
        cases hmo : metaOf en2 with
        | error e =>
          simp only [hmo] at hr2
          simp at hr2
        | ok md2 =>
          simp only [hmo] at hr2
          by_cases hbc : md2.blocks.getD 0 > minBlocks
          · rw [if_pos hbc] at hr2
            have hrr : r = [GatherSend.invEntry (md2.dev.getD 0) (md2.blocks.getD 0) ino2
                (ObjectPath.sub path en2)] := by
              simpa using hr2.symm
            rw [hrr] at hmem
            simp at hmem
            obtain ⟨_, hb, _, _⟩ := hmem
            omega
          · rw [if_neg hbc] at hr2
            have hrr : r = [] := by simpa using hr2.symm
            rw [hrr] at hmem
            simp at hmem
      rcases st2 with _ | s
      · exact hothercase (by simpa [processEntry] using hr)
      · cases s with
        | dir =>
          have hrr : r = [GatherSend.dirMsg (ObjectPath.sub path en2)
              ((65535 - (ObjectPath.sub path en2).depth) <<< 48 + ino2)] := by
            simpa [processEntry] using hr.symm
          exact hdircase _ _ hrr
        | file => exact hothercase (by simpa [processEntry] using hr)
        | symlink => exact hothercase (by simpa [processEntry] using hr)
        | other => exact hothercase (by simpa [processEntry] using hr)

/-- Witness for claim C4 at a file of 100 blocks against min_blocks 64. -/
theorem claim_C4_witness :
    processEntry 64 (.ok ⟨[97], some SimpleType.file, 7⟩)
      (fun _ => .ok ⟨some 100, some 3⟩) (ObjectPath.base [47]) =
      .ok [GatherSend.invEntry 3 100 7
        (ObjectPath.sub (ObjectPath.base [47]) [97])] :=
  (claim_C4_block_filter 64 ⟨[97], some SimpleType.file, 7⟩
    (fun _ => .ok ⟨some 100, some 3⟩) (ObjectPath.base [47]) ⟨some 100, some 3⟩
    (by decide) rfl).1 (by decide)

/-- Claim C5: a sub-directory discovered below path (so at depth
path.depth + 1 = d) is enqueued with priority ((65535 - d) << 48) +
inode, which for d within the 16-bit field and inode below 2^48 equals
the claim's ((MAX_DEPTH_CONST - d) << 48) | inode with MAX_DEPTH_CONST =
u16::MAX = 65535; consequently a deeper directory has a strictly smaller
priority than any shallower one, and at equal depth the smaller inode has
the smaller priority. -/
theorem claim_C5_dir_priority (path : ObjectPath) (entry : RawEntry) (minBlocks : Nat)
    (metaOf : List Nat → Except GErr EMeta)
    (hdir : entry.stype = some SimpleType.dir) :
    processEntry minBlocks (.ok entry) metaOf path =
      .ok [GatherSend.dirMsg (ObjectPath.sub path entry.ename)
        (dirPrioOf (ObjectPath.sub path entry.ename).depth entry.ino)] ∧
    (∀ d i, d ≤ 65535 → i < 2 ^ 48 →
      dirPrioOf d i = ((65535 - d) <<< 48) ||| i) ∧
    (∀ d1 i1 d2 i2, d1 ≤ 65535 → d2 < d1 → i1 < 2 ^ 48 → i2 < 2 ^ 48 →
      dirPrioOf d1 i1 < dirPrioOf d2 i2) ∧
    (∀ d i1 i2, i1 < i2 → dirPrioOf d i1 < dirPrioOf d i2) := by
  refine ⟨?_, ?_, ?_, ?_⟩
  · obtain ⟨en, st, ino⟩ := entry
    simp only at hdir ⊢
    subst hdir
    simp [processEntry, dirPrioOf]
  · intro d i _ hi
    rw [dirPrioOf, Nat.shiftLeft_eq, Nat.mul_comm]
    exact Nat.mul_add_lt_is_or hi _
  · intro d1 i1 d2 i2 hd1 hlt hi1 hi2
    have h2 : (2 : Nat) ^ 48 = 281474976710656 := by norm_num
    simp only [dirPrioOf, Nat.shiftLeft_eq, h2] at hi1 hi2 ⊢
    have hsub : 65535 - d1 < 65535 - d2 := by omega
    have hstep : (65535 - d1) * 281474976710656 + 281474976710656 ≤
        (65535 - d2) * 281474976710656 := by
      have := Nat.succ_le_of_lt hsub
      calc (65535 - d1) * 281474976710656 + 281474976710656
          = (65535 - d1 + 1) * 281474976710656 := by ring
        _ ≤ (65535 - d2) * 281474976710656 :=
            Nat.mul_le_mul_right _ this
    omega
  · intro d i1 i2 h
    simp only [dirPrioOf, Nat.shiftLeft_eq]
    omega

/-- Witness for claim C5 at a directory entry "b" with inode 42 under the
root "/", and concrete depth/inode comparisons. -/
theorem claim_C5_witness :
    processEntry 64 (.ok ⟨[98], some SimpleType.dir, 42⟩)
      (fun _ => .error (GErr.os 0)) (ObjectPath.base [47]) =
      .ok [GatherSend.dirMsg (ObjectPath.sub (ObjectPath.base [47]) [98])
        (dirPrioOf 1 42)] ∧
    dirPrioOf 2 999 < dirPrioOf 1 7 ∧
    dirPrioOf 3 5 < dirPrioOf 3 6 := by
  refine ⟨?_, ?_, ?_⟩
  · exact (claim_C5_dir_priority (ObjectPath.base [47]) ⟨[98], some SimpleType.dir, 42⟩
      64 (fun _ => .error (GErr.os 0)) rfl).1
  · exact (claim_C5_dir_priority (ObjectPath.base [47]) ⟨[98], some SimpleType.dir, 42⟩
      64 (fun _ => .error (GErr.os 0)) rfl).2.2.1 2 999 1 7
      (by decide) (by decide) (by decide) (by decide)
  · exact (claim_C5_dir_priority (ObjectPath.base [47]) ⟨[98], some SimpleType.dir, 42⟩
      64 (fun _ => .error (GErr.os 0)) rfl).2.2.2 3 5 6 (by decide)

/-- Claim C8, counterexample to the unamended claim: a failed read-dir
item (the claim's "error from reading a directory entry") is forwarded
wrapped only as "Could not process entry" over "Invalid directory entry";
neither context carries a path, so the forwarded record is not tagged
with the offending path "/" even though that path is known at the
call site. -/
theorem claim_C8_counterexample :
    (workerStep 0 (.msg ⟨ObjectPath.base [47], false⟩ 0)
      ⟨.ok (), .ok [.error (GErr.os 5)], fun _ => .ok ⟨none, none⟩⟩).1 =
      [InvMsg.err (GErr.ctx ErrCtx.couldNotProcessEntry
        (GErr.ctx ErrCtx.invalidDirectoryEntry (GErr.os 5)))] ∧
    ObjectPath.toPathbuf (ObjectPath.base [47]) = [47] ∧
    errPaths (GErr.ctx ErrCtx.couldNotProcessEntry
      (GErr.ctx ErrCtx.invalidDirectoryEntry (GErr.os 5))) = [] ∧
    ¬ [47] ∈ errPaths (GErr.ctx ErrCtx.couldNotProcessEntry
      (GErr.ctx ErrCtx.invalidDirectoryEntry (GErr.os 5))) := by
  refine ⟨rfl, rfl, rfl, ?_⟩
  simp [errPaths]

/-- Claim C8 (amended): errors from opening a directory, iterating it,
or fetching an entry's metadata are forwarded to the output channel
wrapped with a context naming the offending path; an error from reading
a single directory entry is also forwarded, but wrapped only as "Could
not process entry" over "Invalid directory entry", without a path tag
(see the counterexample); and the worker's receive loop continues on
every input: no per-entry or per-directory error terminates it. -/
theorem claim_C8_error_passthrough (minBlocks : Nat) (m : TraverseMsg) (o : DirOracle)
    (prio : Nat) :
    (∀ qe, (workerStep minBlocks qe o).2 = true) ∧
    (∀ e, o.openRes = .error e →
      workerStep minBlocks (.msg m prio) o =
        ([InvMsg.err (GErr.ctx (ErrCtx.couldNotOpen (ObjectPath.toPathbuf m.path)) e)],
          true)) ∧
    (∀ e, o.openRes = .ok () → o.listRes = .error e →
      workerStep minBlocks (.msg m prio) o =
        ([InvMsg.err (GErr.ctx (ErrCtx.couldNotIterate (ObjectPath.toPathbuf m.path)) e)],
          true)) ∧
    (∀ entries er e, o.openRes = .ok () → o.listRes = .ok entries → er ∈ entries →
      processEntry minBlocks er o.metaOf m.path = .error e →
      InvMsg.err (GErr.ctx ErrCtx.couldNotProcessEntry e) ∈
        (workerStep minBlocks (.msg m prio) o).1) ∧
    (∀ entry me, entry.stype ≠ some SimpleType.dir →
      o.metaOf entry.ename = .error me →
      processEntry minBlocks (.ok entry) o.metaOf m.path =
        .error (GErr.ctx (ErrCtx.failedGetMetadata
          (pushPath (ObjectPath.toPathbuf m.path) entry.ename)) me)) ∧
    (∀ entries e, o.openRes = .ok () → o.listRes = .ok entries →
      Except.error e ∈ entries →
      processEntry minBlocks (.error e) o.metaOf m.path =
        .error (GErr.ctx ErrCtx.invalidDirectoryEntry e) ∧
      InvMsg.err (GErr.ctx ErrCtx.couldNotProcessEntry
        (GErr.ctx ErrCtx.invalidDirectoryEntry e)) ∈
        (workerStep minBlocks (.msg m prio) o).1 ∧
      errPaths (GErr.ctx ErrCtx.couldNotProcessEntry
        (GErr.ctx ErrCtx.invalidDirectoryEntry e)) = errPaths e) := by
  refine ⟨?_, ?_, ?_, ?_, ?_, ?_⟩
  · intro qe
    cases qe with
    | drained => rfl
    | msg m2 pr =>
      cases ho : o.openRes with
      | error e => simp [workerStep, ho]
      | ok u =>
        cases hl : o.listRes with
        | error e => simp [workerStep, ho, hl]
        | ok entries => simp [workerStep, ho, hl]
  · intro e he
    simp [workerStep, he]
  · intro e ho hl
    simp [workerStep, ho, hl]
  · intro entries er e ho hl hmem hpe
    simp only [workerStep, ho, hl]
    rw [List.mem_flatMap]
    refine ⟨er, hmem, ?_⟩
    rw [hpe]
    simp
  · intro entry me hnd hme
    obtain ⟨en, st, ino⟩ := entry
    simp only at hnd hme ⊢
    rcases st with _ | s
    · simp [processEntry, hme]
    · cases s with
      | dir => exact absurd rfl hnd
      | file => simp [processEntry, hme]
      | symlink => simp [processEntry, hme]
      | other => simp [processEntry, hme]
  · intro entries e ho hl hmem
    refine ⟨rfl, ?_, ?_⟩
    · simp only [workerStep, ho, hl]
      rw [List.mem_flatMap]
      exact ⟨.error e, hmem, by simp [processEntry]⟩
    · simp [errPaths]

/-- Witness for claim C8 at a concrete oracle whose open fails with a
permission error: the worker forwards the wrapped error and continues. -/
theorem claim_C8_witness :
    workerStep 0 (.msg ⟨ObjectPath.base [47], false⟩ 5)
      ⟨.error (GErr.os 13), .ok [], fun _ => .ok ⟨none, none⟩⟩ =
      ([InvMsg.err (GErr.ctx
        (ErrCtx.couldNotOpen (ObjectPath.toPathbuf (ObjectPath.base [47])))
        (GErr.os 13))], true) :=
  (claim_C8_error_passthrough 0 ⟨ObjectPath.base [47], false⟩
    ⟨.error (GErr.os 13), .ok [], fun _ => .ok ⟨none, none⟩⟩ 5).2.1 (GErr.os 13) rfl

/-! ## ObjectList (objectlist.rs) -/

/-- Result of slice::binary_search: the index of a matching element, or
the insertion index keeping the order. -/
inductive BsResult where
  | found (i : Nat)
  | notFound (i : Nat)
deriving DecidableEq

/-- Core loop of Rust slice::binary_search_by, as invoked by
Vec::binary_search(&x): bracket halving with the comparison
element.cmp(&target).  The d argument only serves as the getD default;
every probed index lies below the list length. -/
def bsLoop (c : α → Ordering) (d : α) (l : List α) (left right : Nat) : BsResult :=
  if h : left < right then
    let mid := left + (right - left) / 2
    match c (l.getD mid d) with
    | .lt => bsLoop c d l (mid + 1) right
    | .gt => bsLoop c d l left mid
    | .eq => .found mid
  else
    .notFound left
termination_by right - left
decreasing_by
  all_goals omega

/-- Vec::binary_search(&x) on the whole list. -/
def binarySearch (cmp : α → α → Ordering) (l : List α) (x : α) : BsResult :=
  bsLoop (fun e => cmp e x) x l 0 l.length

/-- ObjectList::insert (objectlist.rs lines 16-21): insert only when the
binary search misses, at the returned insertion index
(Vec::insert(idx, x) splits the vector there). -/
def olInsert (cmp : α → α → Ordering) (l : List α) (x : α) : List α :=
  match binarySearch cmp l x with
  | .found _ => l
  | .notFound i => l.take i ++ x :: l.drop i

/-- ObjectList::contains (objectlist.rs lines 29-32): the binary search
hits. -/
def olContains (cmp : α → α → Ordering) (l : List α) (x : α) : Bool :=
  match binarySearch cmp l x with
  | .found _ => true
  | .notFound _ => false

theorem getD_of_lt (l : List α) (d : α) {i : Nat} (h : i < l.length) :
    l.getD i d = l[i] := by
  simp [List.getD_eq_getElem?_getD, List.getElem?_eq_getElem h]

theorem pairwise_getD {R : α → α → Prop} {l : List α} (h : l.Pairwise R) (d : α)
    {i j : Nat} (hij : i < j) (hj : j < l.length) : R (l.getD i d) (l.getD j d) := by
  have hi : i < l.length := by omega
  rw [getD_of_lt l d hi, getD_of_lt l d hj]
  exact List.pairwise_iff_getElem.mp h i j hi hj hij

theorem mem_take_idx {l : List α} {i : Nat} {a : α} (d : α) (h : a ∈ l.take i) :
    ∃ j, j < i ∧ j < l.length ∧ l.getD j d = a := by
  obtain ⟨k, hk, hke⟩ := List.getElem_of_mem h
  have hk2 := hk
  rw [List.length_take] at hk2
  have hlen : k < l.length := by omega
  have hki : k < i := by omega
  refine ⟨k, hki, hlen, ?_⟩
  rw [getD_of_lt l d hlen]
  rw [List.getElem_take] at hke
  exact hke

theorem mem_drop_idx {l : List α} {i : Nat} {b : α} (d : α) (h : b ∈ l.drop i) :
    ∃ j, i ≤ j ∧ j < l.length ∧ l.getD j d = b := by
  obtain ⟨k, hk, hke⟩ := List.getElem_of_mem h
  have hk2 := hk
  rw [List.length_drop] at hk2
  have hlen : i + k < l.length := by omega
  rw [List.getElem_drop] at hke
  exact ⟨i + k, by omega, hlen, by rw [getD_of_lt l d hlen]; exact hke⟩

/-- Correctness predicate of a binary-search result on a sorted list:
found returns an index holding an element comparing equal to the target;
notFound returns the insertion point with everything before it smaller
and everything from it on greater. -/
def BsOk (cmp : α → α → Ordering) (l : List α) (x : α) : BsResult → Prop
  | .found i => i < l.length ∧ cmp (l.getD i x) x = .eq
  | .notFound i => i ≤ l.length ∧
      (∀ j, j < i → j < l.length → cmp (l.getD j x) x = .lt) ∧
      (∀ j, i ≤ j → j < l.length → cmp (l.getD j x) x = .gt)

theorem bsLoop_ok {cmp : α → α → Ordering} (laws : CmpLaws cmp) {l : List α} {x : α}
    (hs : l.Pairwise (fun a b => cmp a b = .lt)) :
    ∀ (fuel left right : Nat), right - left ≤ fuel → right ≤ l.length → left ≤ right →
    (∀ j, j < left → j < l.length → cmp (l.getD j x) x = .lt) →
    (∀ j, right ≤ j → j < l.length → cmp (l.getD j x) x = .gt) →
    BsOk cmp l x (bsLoop (fun e => cmp e x) x l left right) := by
  intro fuel
  induction fuel with
  | zero =>
    intro left right hf hlen hlr hL hR
    have hnlt : ¬ left < right := by omega
    rw [bsLoop, dif_neg hnlt]
    exact ⟨by omega, fun j hj hjl => hL j hj hjl, fun j hj hjl => hR j (by omega) hjl⟩
  | succ fuel ih =>
    intro left right hf hlen hlr hL hR
    rw [bsLoop]
    by_cases h : left < right
    case neg =>
      rw [dif_neg h]
      exact ⟨by omega, fun j hj hjl => hL j hj hjl, fun j hj hjl => hR j (by omega) hjl⟩
    case pos =>
    rw [dif_pos h]
    have hmidlt : left + (right - left) / 2 < right := by omega
    have hmidlen : left + (right - left) / 2 < l.length := by omega
    cases hc : cmp (l.getD (left + (right - left) / 2) x) x with
    | lt =>
      simp only [hc]
      refine ih (left + (right - left) / 2 + 1) right (by omega) hlen (by omega) ?_ hR
      intro j hj hjl
      rcases Nat.lt_or_ge j (left + (right - left) / 2) with hj2 | hj2
      · exact laws.lt_trans _ _ _ (pairwise_getD hs x hj2 hmidlen) hc
      · have hje : j = left + (right - left) / 2 := by omega
        rw [hje]
        exact hc
    | gt =>
      simp only [hc]
      refine ih left (left + (right - left) / 2) (by omega) (by omega) (by omega) hL ?_
      intro j hj hjl
      rcases Nat.eq_or_lt_of_le hj with hj2 | hj2
      · rw [← hj2]
        exact hc
      · have hsj : cmp (l.getD (left + (right - left) / 2) x) (l.getD j x) = .lt :=
          pairwise_getD hs x hj2 hjl
        have h1 : cmp x (l.getD (left + (right - left) / 2) x) = .lt :=
          (laws.gt_iff_lt _ _).mp hc
        exact (laws.gt_iff_lt _ _).mpr (laws.lt_trans _ _ _ h1 hsj)
    | eq =>
      simp only [hc]
      exact ⟨hmidlen, hc⟩

theorem binarySearch_ok {cmp : α → α → Ordering} (laws : CmpLaws cmp) {l : List α} {x : α}
    (hs : l.Pairwise (fun a b => cmp a b = .lt)) :
    BsOk cmp l x (binarySearch cmp l x) :=
  bsLoop_ok laws hs l.length 0 l.length (by omega) (Nat.le_refl _) (by omega)
    (fun j hj _ => absurd hj (Nat.not_lt_zero j))
    (fun j hj hjl => absurd hjl (by omega))

theorem binarySearch_notFound_not_mem {cmp : α → α → Ordering} (laws : CmpLaws cmp)
    {l : List α} {x : α} {i : Nat}
    (hs : l.Pairwise (fun a b => cmp a b = .lt))
    (h : binarySearch cmp l x = .notFound i) : ¬ x ∈ l := by
  intro hx
  have hok := @binarySearch_ok _ cmp laws l x hs
  rw [h] at hok
  obtain ⟨hi, hlt, hgt⟩ := hok
  obtain ⟨j, hj, hje⟩ := List.getElem_of_mem hx
  have hgd : l.getD j x = x := by rw [getD_of_lt l x hj]; exact hje
  rcases Nat.lt_or_ge j i with h2 | h2
  · have hc := hlt j h2 hj
    rw [hgd] at hc
    exact laws.lt_irrefl x hc
  · have hc := hgt j h2 hj
    rw [hgd] at hc
    exact laws.lt_irrefl x ((laws.gt_iff_lt x x).mp hc)

theorem olInsert_sorted {cmp : α → α → Ordering} (laws : CmpLaws cmp) {l : List α} {x : α}
    (hs : l.Pairwise (fun a b => cmp a b = .lt)) :
    (olInsert cmp l x).Pairwise (fun a b => cmp a b = .lt) := by
  unfold olInsert
  cases hsr : binarySearch cmp l x with
  | found i => exact hs
  | notFound i =>
    have hok := @binarySearch_ok _ cmp laws l x hs
    rw [hsr] at hok
    obtain ⟨hi, hlt, hgt⟩ := hok
    rw [List.pairwise_append]
    refine ⟨List.Pairwise.sublist (List.take_sublist i l) hs, ?_, ?_⟩
    · rw [List.pairwise_cons]
      refine ⟨?_, List.Pairwise.sublist (List.drop_sublist i l) hs⟩
      intro b hb
      obtain ⟨j, hij, hjl, hgd⟩ := mem_drop_idx x hb
      have hc := hgt j hij hjl
      rw [hgd] at hc
      exact (laws.gt_iff_lt _ _).mp hc
    · intro a ha b hb
      obtain ⟨j, hji, hjl, hgda⟩ := mem_take_idx x ha
      rcases List.mem_cons.mp hb with hbx | hbd
      · subst hbx
        have hc := hlt j hji hjl
        rw [hgda] at hc
        exact hc
      · obtain ⟨j2, hij2, hjl2, hgdb⟩ := mem_drop_idx x hbd
        have hjj : j < j2 := by omega
        have hc := pairwise_getD hs x hjj hjl2
        rw [hgda, hgdb] at hc
        exact hc

theorem olInsert_mem_eq {cmp : α → α → Ordering} (laws : CmpLaws cmp) {l : List α} {x : α}
    (hs : l.Pairwise (fun a b => cmp a b = .lt)) (hx : x ∈ l) : olInsert cmp l x = l := by
  unfold olInsert
  cases hsr : binarySearch cmp l x with
  | found i => rfl
  | notFound i => exact absurd hx (binarySearch_notFound_not_mem laws hs hsr)

theorem mem_olInsert_self {cmp : α → α → Ordering} (laws : CmpLaws cmp) {l : List α} {x : α}
    (hs : l.Pairwise (fun a b => cmp a b = .lt)) : x ∈ olInsert cmp l x := by
  unfold olInsert
  cases hsr : binarySearch cmp l x with
  | found i =>
    have hok := @binarySearch_ok _ cmp laws l x hs
    rw [hsr] at hok
    obtain ⟨hil, hceq⟩ := hok
    have hx : l.getD i x = x := (laws.eq_iff _ _).mp hceq
    rw [getD_of_lt l x hil] at hx
    rw [← hx]
    exact List.getElem_mem hil
  | notFound i => simp

theorem olContains_insert {cmp : α → α → Ordering} (laws : CmpLaws cmp) {l : List α} {x : α}
    (hs : l.Pairwise (fun a b => cmp a b = .lt)) :
    olContains cmp (olInsert cmp l x) x = true := by
  have hs2 := @olInsert_sorted _ cmp laws l x hs
  unfold olContains
  cases hsr2 : binarySearch cmp (olInsert cmp l x) x with
  | found i => rfl
  | notFound i =>
    exact absurd (mem_olInsert_self laws hs)
      (binarySearch_notFound_not_mem laws hs2 hsr2)

/-- ObjectList (objectlist.rs line 7): a sorted vector of shared path
references, ordered by the derived ObjectPath order. -/
abbrev ObjectList := List ObjectPath

/-- ObjectList::insert over the ObjectPath order. -/
def objectListInsert (l : ObjectList) (x : ObjectPath) : ObjectList :=
  olInsert ObjectPath.cmpPath l x

/-- ObjectList::contains over the ObjectPath order. -/
def objectListContains (l : ObjectList) (x : ObjectPath) : Bool :=
  olContains ObjectPath.cmpPath l x

/-- Sorted order on an ObjectList: strictly ascending in the derived
ObjectPath order, which also forces uniqueness. -/
abbrev olSorted (l : ObjectList) : Prop :=
  l.Pairwise (fun a b => ObjectPath.cmpPath a b = .lt)

theorem insertAll_sorted (xs : List ObjectPath) :
    ∀ l : ObjectList, olSorted l → olSorted (xs.foldl objectListInsert l) := by
  induction xs with
  | nil => intro l hl; exact hl
  | cons x xs ih =>
    intro l hl
    exact ih _ (olInsert_sorted ObjectPath.cmpPath_laws hl)

/-- Claim C9: starting from the empty object list, any sequence of
inserts keeps the stored sequence strictly sorted in the ObjectPath order
and free of duplicates; inserting a path that the list already contains
leaves it unchanged; and after inserting a path, contains finds it. -/
theorem claim_C9_objectlist (xs : List ObjectPath) (l : ObjectList) (x : ObjectPath)
    (hl : olSorted l) :
    olSorted (xs.foldl objectListInsert []) ∧
    (xs.foldl objectListInsert []).Nodup ∧
    (x ∈ l → objectListInsert l x = l) ∧
    objectListContains (objectListInsert l x) x = true := by
  have hsall := insertAll_sorted xs [] (List.Pairwise.nil)
  refine ⟨hsall, ?_, ?_, ?_⟩
  · exact hsall.imp (fun hab => by
      intro hcon
      subst hcon
      exact ObjectPath.cmpPath_laws.lt_irrefl _ hab)
  · intro hx
    exact olInsert_mem_eq ObjectPath.cmpPath_laws hl hx
  · exact olContains_insert ObjectPath.cmpPath_laws hl

/-- Witness for claim C9 at the sorted two-element list containing "a"
and "c": re-inserting "a" changes nothing and is then found. -/
theorem claim_C9_witness :
    objectListInsert [ObjectPath.base [97], ObjectPath.base [99]] (ObjectPath.base [97]) =
      [ObjectPath.base [97], ObjectPath.base [99]] ∧
    objectListContains
      (objectListInsert [ObjectPath.base [97], ObjectPath.base [99]]
        (ObjectPath.base [97])) (ObjectPath.base [97]) = true := by
  have h := claim_C9_objectlist []
    [ObjectPath.base [97], ObjectPath.base [99]] (ObjectPath.base [97]) (by decide)
  exact ⟨h.2.2.1 (by decide), h.2.2.2⟩

end Rmrfd
